import Mathlib

/-!
# Two-phase commit: coordinator and participant

A shallow embedding of `coordinator.cpp` and `participant.cpp`.

* `std::string` is a list of characters (`Str`); `size_t` is a natural number
  taken modulo `2 ^ 64`, so that `npos + 1` wraps to `0` as it does in the source.
* `double` is `Dbl`: a binary64 value, that is a finite number, negative zero,
  an infinity or a NaN with its sign bit.  Comparison, negation, product and sum
  follow IEEE 754: `stod`, sum and product round to the nearest binary64 number,
  ties to even, and a sum or product that overflows is an infinity.
* The library routines the two programs call (`find`, `substr`, `stod`,
  `to_string`, `operator<<` on a `double`, `getline`, `atoi`) are written out below.
* Console and log lines of the participant are not represented; the replies it
  sends, its return value, its fields and the account file it writes are.
-/

namespace TwoPC

/-! ## Strings -/

/-- A `std::string`, as its sequence of characters. -/
abbrev Str := List Char

/-- The constant `std::string::npos`, the largest 64-bit `size_t` value. -/
def npos : Nat := 2 ^ 64 - 1

/-- Addition of two `size_t` values, modulo `2 ^ 64`. -/
def sizeAdd (a b : Nat) : Nat := (a + b) % 2 ^ 64

/-- The call `s.find(c)`: position of the first `c` in `s`, or `npos`. -/
def find (s : Str) (c : Char) : Nat :=
  if s.indexOf c < s.length then s.indexOf c else npos

/-- The call `s.substr(pos, len)` for `pos ≤ s.size()`: at most `len` characters
from position `pos`.  The source only passes `0` or `find(' ') + 1` as `pos`,
which never exceeds the size, so the `std::out_of_range` case does not arise. -/
def substr (s : Str) (pos : Nat) (len : Nat) : Str := (s.drop pos).take len

/-- The text before the first space: `s.substr(0, s.find(' '))`. -/
def headToken (s : Str) : Str := substr s 0 (find s ' ')

/-- The text after the first space: `s.substr(s.find(' ') + 1)`.  When there is no
space, `npos + 1` wraps to `0` and the whole string is returned. -/
def tailText (s : Str) : Str := substr s (sizeAdd (find s ' ') 1) npos

/-! ## Doubles -/

/-- Rounding of the non-negative rational `n / d` to the nearest natural number,
ties to even. -/
def roundHalfEven (n d : Nat) : Nat :=
  if 2 * (n % d) < d then n / d
  else if d < 2 * (n % d) then n / d + 1
  else if (n / d) % 2 = 0 then n / d else n / d + 1

/-- The rational `m * b ^ e`. -/
def scale (m b : Nat) (e : Int) : ℚ := mkRat (m * b ^ e.toNat) (b ^ (-e).toNat)

/-- A `double` value (binary64): a finite number, negative zero, an infinity
(`neg` tells its sign), or a NaN with its sign bit clear (`nan`) or set
(`negNan`).  The constructor `fin 0` is positive zero.  The finite values that
`stod` and the arithmetic below produce are binary64 numbers. -/
inductive Dbl where
  | fin (q : ℚ)
  | negZero
  | inf (neg : Bool)
  | nan
  | negNan
  deriving DecidableEq

namespace Dbl

/-- The rational a finite double denotes. -/
def finVal : Dbl → Option ℚ
  | fin q => some q
  | negZero => some 0
  | _ => none

/-- The sign bit. -/
def signBit : Dbl → Bool
  | fin q => decide (q < 0)
  | negZero => true
  | inf s => s
  | nan => false
  | negNan => true

/-- Whether the value is a NaN. -/
def isNaN : Dbl → Bool
  | nan => true
  | negNan => true
  | _ => false

/-- A zero of the given sign. -/
def zero (s : Bool) : Dbl := if s then negZero else fin 0

/-- A NaN of the given sign. -/
def nanOf (s : Bool) : Dbl := if s then negNan else nan

/-- The position of the leading binary digit of `n`, found in at most `fuel`
halvings: the `k` with `2 ^ k ≤ n < 2 ^ (k + 1)` when `0 < n ≤ fuel`. -/
def ilog2 : Nat → Nat → Nat
  | 0, _ => 0
  | fuel + 1, n => if n < 2 then 0 else ilog2 fuel (n / 2) + 1

/-- The binary exponent of a positive rational `m`: the `e` with
`2 ^ e ≤ m < 2 ^ (e + 1)`. -/
def binade (m : ℚ) : Int :=
  if m.den * 2 ^ ilog2 m.num.toNat m.num.toNat ≤ m.num.toNat * 2 ^ ilog2 m.den m.den then
    (ilog2 m.num.toNat m.num.toNat : Int) - ilog2 m.den m.den
  else (ilog2 m.num.toNat m.num.toNat : Int) - ilog2 m.den m.den - 1

/-- The exponent of the last place of the binary64 numbers around a positive
rational `m`: 52 below its binary exponent, and `-1074` in the subnormal range. -/
def quantum (m : ℚ) : Int := max (binade m) (-1022) - 52

/-- The multiple of `2 ^ quantum m` nearest to the positive rational `m`, ties to
the even multiple: the binary64 magnitude nearest to `m`, when it is below
`2 ^ 1024`. -/
def nearest (m : ℚ) : ℚ :=
  scale (roundHalfEven (m.num.toNat * 2 ^ (-(quantum m)).toNat) (m.den * 2 ^ (quantum m).toNat))
    2 (quantum m)

/-- Rounding of a rational to binary64, to nearest with ties to even: an infinity
on overflow, a signed zero on underflow. -/
def round (q : ℚ) : Dbl :=
  if q = 0 then fin 0
  else if 2 ^ 1024 ≤ nearest |q| then inf (decide (q < 0))
  else if nearest |q| = 0 then zero (decide (q < 0))
  else fin (if q < 0 then -nearest |q| else nearest |q|)

/-- The double of the given sign bit nearest to the magnitude `m ≥ 0`. -/
def ofSignMag (s : Bool) (m : ℚ) : Dbl :=
  if m = 0 then zero s else round (if s then -m else m)

/-- The comparison `a < b` on doubles: false whenever a NaN is involved. -/
def lt : Dbl → Dbl → Bool
  | nan, _ => false
  | negNan, _ => false
  | _, nan => false
  | _, negNan => false
  | inf s, inf t => s && !t
  | inf s, _ => s
  | _, inf t => !t
  | a, b =>
    match a.finVal, b.finVal with
    | some x, some y => decide (x < y)
    | _, _ => false

/-- Unary minus: a change of the sign bit. -/
def neg : Dbl → Dbl
  | fin q => if q = 0 then negZero else fin (-q)
  | negZero => fin 0
  | inf s => inf (!s)
  | nan => negNan
  | negNan => nan

/-- The sum `a + b`, rounded to binary64.  A NaN operand is the result; when both
are, the first one is taken here, which of the two the machine code returns
being left to the compiler.  The sum of opposite infinities is the NaN with its
sign bit set, as on x86-64. -/
def add : Dbl → Dbl → Dbl
  | nan, _ => nan
  | negNan, _ => negNan
  | _, nan => nan
  | _, negNan => negNan
  | inf s, inf t => if s = t then inf s else negNan
  | inf s, _ => inf s
  | _, inf t => inf t
  | negZero, negZero => negZero
  | negZero, fin b => fin b
  | fin a, negZero => fin a
  | fin a, fin b => round (a + b)

/-- The product `a * b`, rounded to binary64; a product by `1` or `-1` is exact.
The source only multiplies by `-1`, which the compiler turns into a change of
sign, so the sign bit of a product is that of its factors combined, for a NaN
too; a zero times an infinity is the NaN with its sign bit set. -/
def mul : Dbl → Dbl → Dbl
  | a, b =>
    if a.isNaN || b.isNaN then nanOf (xor a.signBit b.signBit)
    else
      match a.finVal, b.finVal with
      | some x, some y =>
        if x * y = 0 then zero (xor a.signBit b.signBit)
        else if |x| = 1 ∨ |y| = 1 then fin (x * y)
        else round (x * y)
      | some x, none => if x = 0 then negNan else inf (xor a.signBit b.signBit)
      | none, some y => if y = 0 then negNan else inf (xor a.signBit b.signBit)
      | none, none => inf (xor a.signBit b.signBit)

end Dbl

/-! ## Reading a double: `std::stod` -/

/-- The C function `isspace` in the "C" locale. -/
def isspace (c : Char) : Bool :=
  c = ' ' || c = '\t' || c = '\n' || c = '\x0b' || c = '\x0c' || c = '\r'

/-- Value of a decimal digit. -/
def decDigit (c : Char) : Option Nat :=
  if '0' ≤ c ∧ c ≤ '9' then some (c.toNat - 48) else none

/-- Value of a hexadecimal digit. -/
def hexDigit (c : Char) : Option Nat :=
  if '0' ≤ c ∧ c ≤ '9' then some (c.toNat - 48)
  else if 'a' ≤ c ∧ c ≤ 'f' then some (c.toNat - 87)
  else if 'A' ≤ c ∧ c ≤ 'F' then some (c.toNat - 55)
  else none

/-- The longest run of digits at the front of a string, and what follows it. -/
def spanDigits (dig : Char → Option Nat) : Str → List Nat × Str
  | [] => ([], [])
  | c :: cs =>
    match dig c with
    | some d => (d :: (spanDigits dig cs).1, (spanDigits dig cs).2)
    | none => ([], c :: cs)

/-- The number written by a list of digits in the given base. -/
def digitsVal (base : Nat) (ds : List Nat) : Nat :=
  ds.foldl (fun acc d => acc * base + d) 0

/-- An optional sign at the front of a string: whether it is `-`, and the rest. -/
def readSign : Str → Bool × Str
  | '+' :: r => (false, r)
  | '-' :: r => (true, r)
  | s => (false, s)

/-- The exponent part (`e+12`, `p-3`): its value, or `0` when the marker is not
followed by an optionally signed digit. -/
def readExponent (lo up : Char) : Str → Int
  | [] => 0
  | c :: cs =>
    if c = lo ∨ c = up then
      match (spanDigits decDigit (readSign cs).2).1 with
      | [] => 0
      | ds => if (readSign cs).1 then -(digitsVal 10 ds : Int) else (digitsVal 10 ds : Int)
    else 0

/-- The digits after a decimal point, when there is one. -/
def readFraction (dig : Char → Option Nat) : Str → List Nat × Str
  | '.' :: t => spanDigits dig t
  | r => ([], r)

/-- A decimal floating constant without its sign: digits with an optional point
and an optional exponent.  At least one digit is required. -/
def readDecimal (s : Str) : Option ℚ :=
  let ip := spanDigits decDigit s
  let fp := readFraction decDigit ip.2
  if ip.1 = [] ∧ fp.1 = [] then none
  else some (scale (digitsVal 10 (ip.1 ++ fp.1)) 10
          (readExponent 'e' 'E' fp.2 - fp.1.length))

/-- A hexadecimal floating constant, after its `0x`. -/
def readHex (s : Str) : Option ℚ :=
  let ip := spanDigits hexDigit s
  let fp := readFraction hexDigit ip.2
  if ip.1 = [] ∧ fp.1 = [] then none
  else some (scale (digitsVal 16 (ip.1 ++ fp.1)) 2
          (readExponent 'p' 'P' fp.2 - 4 * fp.1.length))

/-- A hexadecimal constant when the text starts with `0x` or `0X` and a
hexadecimal digit follows. -/
def readHexPrefixed : Str → Option ℚ
  | '0' :: x :: r => if x = 'x' ∨ x = 'X' then readHex r else none
  | _ => none

/-- The magnitude `stod` reads at the front of a text, sign already removed: a
hexadecimal constant if there is one, else a decimal constant. -/
def readMagnitude (t : Str) : Option ℚ :=
  match readHexPrefixed t with
  | some m => some m
  | none => readDecimal t

/-- Whether `strtod` reports `ERANGE` for the magnitude `m ≥ 0`: `m` rounds to
infinity, that is `2 ^ 1024 - 2 ^ 970 ≤ m`, or `m` is not zero, rounds to 53 bits
below `2 ^ (-1022)`, that is `m < 2 ^ (-1022) - 2 ^ (-1076)`, and is not a multiple
of `2 ^ (-1074)`. -/
def outOfRange (m : ℚ) : Bool :=
  decide ((2 ^ 1024 - 2 ^ 970) * m.den ≤ m.num.toNat) ||
    (decide (0 < m.num.toNat) && decide (m.num.toNat * 2 ^ 1076 < (2 ^ 54 - 1) * m.den) &&
      decide (m.num.toNat * 2 ^ 1074 % m.den ≠ 0))

/-- The call `std::stod(s)`: leading white space, an optional sign, then `inf`,
`nan`, a hexadecimal or a decimal constant; what follows the number is ignored.
The value is the binary64 number nearest to the number written.  The result
`none` is an exception: `std::invalid_argument` when no number can be read,
`std::out_of_range` when `strtod` reports `ERANGE`. -/
def stod (s : Str) : Option Dbl :=
  let t := readSign (s.dropWhile isspace)
  let word := (t.2.take 3).map Char.toLower
  if word = "inf".toList then some (Dbl.inf t.1)
  else if word = "nan".toList then some (Dbl.nanOf t.1)
  else
    match readMagnitude t.2 with
    | none => none
    | some m => if outOfRange m then none else some (Dbl.ofSignMag t.1 m)

/-! ## Writing a double: `std::to_string` and `operator<<` -/

/-- The decimal digits of a natural number, padded with zeros on the left to at
least `w` characters. -/
def padDigits (w n : Nat) : Str :=
  List.replicate (w - (Nat.toDigits 10 n).length) '0' ++ Nat.toDigits 10 n

/-- Text of a non-negative rational in `%f` style with `p` decimals. -/
def fixedText (p : Nat) (m : ℚ) : Str :=
  let n := roundHalfEven (m.num.toNat * 10 ^ p) m.den
  Nat.toDigits 10 (n / 10 ^ p) ++ (if p = 0 then [] else '.' :: padDigits p (n % 10 ^ p))

/-- The call `std::to_string(double)`, which prints with `%f`: six decimals. -/
def to_string : Dbl → Str
  | Dbl.fin q => (if q < 0 then ['-'] else []) ++ fixedText 6 |q|
  | Dbl.negZero => '-' :: fixedText 6 0
  | Dbl.inf s => (if s then ['-'] else []) ++ "inf".toList
  | Dbl.nan => "nan".toList
  | Dbl.negNan => "-nan".toList

/-- Search for the least `k`, from `k` upwards, with `d ≤ n * 10 ^ k`. -/
def leastExp (n d : Nat) : Nat → Nat → Nat
  | 0, k => k
  | fuel + 1, k => if d ≤ n * 10 ^ k then k else leastExp n d fuel (k + 1)

/-- The decimal exponent of a positive rational `m`: `10 ^ x ≤ m < 10 ^ (x + 1)`. -/
def floorLog10 (m : ℚ) : Int :=
  if m.den ≤ m.num.toNat then ((Nat.toDigits 10 (m.num.toNat / m.den)).length : Int) - 1
  else -(leastExp m.num.toNat m.den (Nat.toDigits 10 m.den).length 1 : Int)

/-- A positive rational rounded to six significant digits: the six-digit
number `n` and the exponent `x` with value `n * 10 ^ (x - 5)`. -/
def sixDigits (m : ℚ) : Nat × Int :=
  let x := floorLog10 m
  let n := roundHalfEven (m.num.toNat * 10 ^ (5 - x).toNat) (m.den * 10 ^ (x - 5).toNat)
  if n = 10 ^ 6 then (10 ^ 5, x + 1) else (n, x)

/-- Removal of the zeros at the end of a run of digits. -/
def stripZeros (s : Str) : Str := (s.reverse.dropWhile (fun c => c = '0')).reverse

/-- A decimal point and the digits after it, nothing when no digit is left. -/
def pointThen (frac : Str) : Str := if frac = [] then [] else '.' :: frac

/-- Text of a positive rational in `%g` style with precision 6, the default of
an output stream: scientific notation when the exponent is below `-4` or at
least `6`, fixed notation otherwise, trailing zeros removed. -/
def generalText (m : ℚ) : Str :=
  let n := (sixDigits m).1
  let x := (sixDigits m).2
  let ds := Nat.toDigits 10 n
  if x < -4 ∨ 6 ≤ x then
    ds.take 1 ++ pointThen (stripZeros (ds.drop 1)) ++
      ('e' :: (if x < 0 then '-' else '+') :: padDigits 2 x.natAbs)
  else if 0 ≤ x then
    ds.take (x.toNat + 1) ++ pointThen (stripZeros (ds.drop (x.toNat + 1)))
  else
    '0' :: '.' :: (List.replicate ((-x).toNat - 1) '0' ++ stripZeros ds)

/-- The output `stream << d` of a `double` with the stream defaults. -/
def streamText : Dbl → Str
  | Dbl.fin q =>
    if q = 0 then ['0'] else (if q < 0 then ['-'] else []) ++ generalText |q|
  | Dbl.negZero => ['-', '0']
  | Dbl.inf s => (if s then ['-'] else []) ++ "inf".toList
  | Dbl.nan => "nan".toList
  | Dbl.negNan => "-nan".toList

/-! ## The participant (`participant.cpp`) -/

/-- States of the participant state machine (`enum State`). -/
inductive State where
  | INIT
  | ABORT
  | READY
  | COMMIT
  deriving DecidableEq

/-- An account (`class Account`): a name and a balance. -/
structure Account where
  accountName : Str
  amount : Dbl
  deriving DecidableEq

namespace Account

/-- Getter of the name. -/
def getAccountName (a : Account) : Str := a.accountName

/-- Getter of the balance. -/
def getAmount (a : Account) : Dbl := a.amount

/-- The method `changeAmount`: `amount += transAmount`. -/
def changeAmount (a : Account) (transAmount : Dbl) : Account :=
  { a with amount := a.amount.add transAmount }

end Account

/-- The lines that successive `getline` calls read from a text: `cur` is the
line being read.  A last line without a newline is still read; an empty rest is
not a line. -/
def getlinesFrom : Str → Str → List Str
  | cur, [] => if cur = [] then [] else [cur]
  | cur, c :: cs => if c = '\n' then cur :: getlinesFrom [] cs else getlinesFrom (cur ++ [c]) cs

/-- The lines of an account file. -/
def getlines (text : Str) : List Str := getlinesFrom [] text

/-- The loop of the constructor over the lines of the account file: the balance
is `stod` of the text before the first space, the name is the text after it.
The result `none` is the exception `stod` throws, which nothing catches. -/
def loadLines : List Str → Option (List Account)
  | [] => some []
  | line :: rest =>
    match stod (headToken line) with
    | none => none
    | some balance =>
      (loadLines rest).map
        (fun accountVec => ⟨tailText line, balance⟩ :: accountVec)

/-- The accounts the constructor loads from the text of the account file. -/
def loadAccounts (text : Str) : Option (List Account) := loadLines (getlines text)

/-- The write loop of the commit branch: one line `<balance> <name>` per account. -/
def writeAccounts : List Account → Str
  | [] => []
  | a :: rest =>
    streamText a.getAmount ++ (' ' :: a.getAccountName) ++ ('\n' :: writeAccounts rest)

/-- The fields of `P2Server` that `process` reads and writes.  The flag
`accountFileOpens` is the environment: whether opening the account file for
writing succeeds. -/
structure P2Server where
  accountVec : List Account
  state : State
  amount : Dbl
  accountName : Str
  accountFileOpens : Bool
  deriving DecidableEq

/-- The server the constructor builds from the text of the account file: state
`INIT`, an empty `accountName`; the field `amount` is left uninitialised by the
source, so its value `amount0` is arbitrary. -/
def P2Server.load (text : Str) (amount0 : Dbl) (accountFileOpens : Bool) : Option P2Server :=
  (loadAccounts text).map (fun accountVec => ⟨accountVec, State.INIT, amount0, [], accountFileOpens⟩)

/-- The iterator loop `for (; it < accountVec.end(); it++) if (name matches) break`:
the position of the first account with that name, or the size (`end()`). -/
def findAccount (accountVec : List Account) (accountName : Str) : Nat :=
  accountVec.findIdx (fun a => a.getAccountName = accountName)

/-- How a call of `process` ends. -/
inductive Outcome where
  /-- Normal return: the return value, the server afterwards, the replies sent with
  `respond`, and the new content of the account file when it was rewritten. -/
  | returned (keep : Bool) (server : P2Server) (replies : List Str) (written : Option Str)
  /-- The exception `std::invalid_argument` left `process`; the fields are as they
  were at the throw. -/
  | threw (server : P2Server)
  /-- The call `exit(EXIT_FAILURE)`: the account file could not be opened. -/
  | exited (server : P2Server)
  /-- The iterator `end()` was dereferenced. -/
  | undefined
  deriving DecidableEq

/-- The server after the call, when there is one. -/
def Outcome.server? : Outcome → Option P2Server
  | Outcome.returned _ s _ _ => some s
  | Outcome.threw s => some s
  | Outcome.exited s => some s
  | Outcome.undefined => none

/-- The replies sent during the call. -/
def Outcome.replies : Outcome → List Str
  | Outcome.returned _ _ rs _ => rs
  | _ => []

/-- The value returned, when the call returns. -/
def Outcome.keep? : Outcome → Option Bool
  | Outcome.returned k _ _ _ => some k
  | _ => none

/-- The vote taken in `INIT` once amount and account name are stored: abort when
the account is missing or the amount is negative and the balance is below its
opposite. -/
def voteAbort (s : P2Server) : Bool :=
  match s.accountVec[findAccount s.accountVec s.accountName]? with
  | none => true
  | some it => s.amount.lt (Dbl.fin 0) && it.getAmount.lt (s.amount.mul (Dbl.fin (-1)))

/-- The balance change of the commit branch: the iterator loop, then
`it->changeAmount(amount)`.  The result `none` is the dereference of `end()`
when no account has that name. -/
def commitTransfer (accountVec : List Account) (accountName : Str) (amount : Dbl) :
    Option (List Account) :=
  match accountVec[findAccount accountVec accountName]? with
  | none => none
  | some it => some (accountVec.set (findAccount accountVec accountName) (it.changeAmount amount))

/-- The end of the `INIT` branch, once `amount` and `accountName` are stored:
`VOTE-ABORT` and `return false`, or `VOTE-COMMIT`, `state = READY` and
`return true`. -/
def vote (s : P2Server) : Outcome :=
  if voteAbort s then
    Outcome.returned false s ["VOTE-ABORT".toList] none
  else
    Outcome.returned true { s with state := State.READY } ["VOTE-COMMIT".toList] none

/-- The branch `state == INIT` of `process`: the first word must be
`VOTE-REQUEST`; of the rest, the text before the first space is read by `stod`
into `amount` and the text after it is stored in `accountName`. -/
def processInit (s : P2Server) (request : Str) : Outcome :=
  if headToken request ≠ "VOTE-REQUEST".toList then
    Outcome.returned false s [] none
  else
    match stod (headToken (tailText request)) with
    | none => Outcome.threw s
    | some amount => vote { s with amount := amount, accountName := tailText (tailText request) }

/-- The branch `state == READY` of `process`. -/
def processReady (s : P2Server) (request : Str) : Outcome :=
  if request = "GLOBAL-ABORT".toList then
    Outcome.returned false { s with state := State.INIT } [] none
  else if request = "GLOBAL-COMMIT".toList then
    match commitTransfer s.accountVec s.accountName s.amount with
    | none => Outcome.undefined
    | some accountVec =>
      if s.accountFileOpens then
        Outcome.returned false { s with accountVec := accountVec, state := State.INIT } []
          (some (writeAccounts accountVec))
      else Outcome.exited { s with accountVec := accountVec }
  else
    Outcome.returned false { s with state := State.INIT } [] none

/-- The method `P2Server::process`: in any state other than `INIT` and `READY`
it does nothing and returns `false`. -/
def process (s : P2Server) (request : Str) : Outcome :=
  match s.state with
  | State.INIT => processInit s request
  | State.READY => processReady s request
  | _ => Outcome.returned false s [] none

/-! ## The coordinator (`coordinator.cpp`) -/

/-- The C function `atoi`, that is `(int) strtol(s, NULL, 10)`: leading white
space, an optional sign, decimal digits; the value is clamped to the range of
`long` and then truncated to 32 bits.  Without a digit the result is `0`. -/
def atoi (s : Str) : Int :=
  let t := readSign (s.dropWhile isspace)
  let v : Int := digitsVal 10 (spanDigits decDigit t.2).1
  let l : Int := max (-(2 ^ 63)) (min (2 ^ 63 - 1) (if t.1 then -v else v))
  (l + 2 ^ 31) % 2 ^ 32 - 2 ^ 31

/-- The check `port < 1 || port >= 1 << 16` of the source, negated. -/
def validPort (port : Int) : Bool := decide (1 ≤ port) && decide (port < 2 ^ 16)

/-- The element `argv[i]`; the callers have checked `argc`. -/
def arg (argv : List Str) (i : Nat) : Str := argv.getD i []

/-- The first vote request: `string("VOTE-REQUEST ") + argv[4] + " " + to_string(-amount)`. -/
def message (argv : List Str) (amount : Dbl) : Str :=
  "VOTE-REQUEST ".toList ++ arg argv 4 ++ " ".toList ++ to_string amount.neg

/-- The second vote request: `string("VOTE-REQUEST ") + argv[4] + " " + to_string(amount)`. -/
def message2 (argv : List Str) (amount : Dbl) : Str :=
  "VOTE-REQUEST ".toList ++ arg argv 4 ++ " ".toList ++ to_string amount

/-- The decision taken from the two vote replies: the flag `committed` and the
message sent to both sessions. -/
def decision (response response2 : Str) : Bool × Str :=
  if response = "VOTE-COMMIT".toList ∧ response2 = "VOTE-COMMIT".toList then
    (true, "GLOBAL-COMMIT".toList)
  else
    (false, "GLOBAL-ABORT".toList)

/-- The final line written to the console and to the log. -/
def finalLine (committed : Bool) (response response2 : Str) : Str :=
  if response = "ACK".toList ∧ response2 = "ACK".toList then
    if committed then "Transaction committed".toList else "Transaction aborted".toList
  else "Error: ACK not received. This should not occur.".toList

/-- What a run of the coordinator did: the requests sent on each session in
order, the flag `committed`, and the final line. -/
structure Run where
  sent : List Str
  sent2 : List Str
  committed : Bool
  line : Str
  deriving DecidableEq

/-- How `main` of the coordinator ends. -/
inductive MainResult where
  /-- Return of `EXIT_FAILURE` before any connection is made. -/
  | failure
  /-- The exception of `stod(argv[2])`, which nothing catches. -/
  | threw
  /-- Return of `EXIT_SUCCESS` after a whole run. -/
  | success (run : Run)
  deriving DecidableEq

/-- How the start of `main` ends: it stops with a result, or goes on with the
amount read from `argv[2]`. -/
inductive Setup where
  | stop (r : MainResult)
  | go (amount : Dbl)
  deriving DecidableEq

/-- The start of `main` up to the connections: the amount, unless the usage or
port checks fail or `stod` throws. -/
def setup (argv : List Str) : Setup :=
  if argv.length < 9 then Setup.stop MainResult.failure
  else
    match stod (arg argv 2) with
    | none => Setup.stop MainResult.threw
    | some amount =>
      if !validPort (atoi (arg argv 4)) then Setup.stop MainResult.failure
      else if !validPort (atoi (arg argv 7)) then Setup.stop MainResult.failure
      else Setup.go amount

/-- The function `main` of the coordinator.  The log file and both connections
are taken to open; `votes` are the two strings the first pair of `get_response`
calls return, `acks` those of the second pair.  Only the final line of the log
is kept. -/
def main (argv : List Str) (votes acks : Str × Str) : MainResult :=
  match setup argv with
  | Setup.stop r => r
  | Setup.go amount =>
    MainResult.success
      { sent := [message argv amount, (decision votes.1 votes.2).2]
        sent2 := [message2 argv amount, (decision votes.1 votes.2).2]
        committed := (decision votes.1 votes.2).1
        line := finalLine (decision votes.1 votes.2).1 acks.1 acks.2 }

/-! ## The coordinator run against two participants -/

/-- One end of a connection: the participant behind it and whether the
connection is still open. -/
structure Session where
  server : P2Server
  connected : Bool
  deriving DecidableEq

/-- Modelled from the spec: the request and response transport of `TCPServer`
and `TCPClient`, which are not among the sources.  A request sent on an open
connection is handed to `process`; a reply sent with `respond` is what the next
`get_response` reads; when `process` returns `false`, or ends the program, the
connection is closed; a request sent on a closed connection reaches nobody.
The result is the session afterwards and the reply, and `none` when `process`
has no defined behaviour. -/
def deliver (sess : Session) (request : Str) : Option (Session × Option Str) :=
  if sess.connected then
    match process sess.server request with
    | Outcome.returned keep s replies _ => some (⟨s, keep⟩, replies.head?)
    | Outcome.threw s => some (⟨s, false⟩, none)
    | Outcome.exited s => some (⟨s, false⟩, none)
    | Outcome.undefined => none
  else some (sess, none)

/-- How a run of the coordinator against two participants ends; `p1` and `p2`
are the participants as the run leaves them. -/
inductive RunResult where
  /-- The coordinator stopped before it sent anything. -/
  | notStarted (r : MainResult) (p1 p2 : P2Server)
  /-- A vote reply never came: the coordinator takes no decision. -/
  | noDecision (p1 p2 : P2Server)
  /-- The coordinator ran to its end. -/
  | finished (r : MainResult) (p1 p2 : P2Server)
  /-- A participant dereferenced `end()`. -/
  | undefined
  deriving DecidableEq

/-- Modelled from the spec: one run of `main` of the coordinator with the origin
participant `p1` behind the first connection and the destination participant
`p2` behind the second, over the transport `deliver`.  The coordinator waits for
each vote before it goes on, and a vote that never comes leaves it without a
decision (the spec: no timeout, a transport failure before the decision is
fatal).  After the decision a `get_response` that receives nothing yields the
empty string, which `main` logs as the missing acknowledgment. -/
def runTransaction (argv : List Str) (p1 p2 : P2Server) : RunResult :=
  match setup argv with
  | Setup.stop r => RunResult.notStarted r p1 p2
  | Setup.go amount =>
    match deliver ⟨p1, true⟩ (message argv amount) with
    | none => RunResult.undefined
    | some (s1, none) => RunResult.noDecision s1.server p2
    | some (s1, some response) =>
      match deliver ⟨p2, true⟩ (message2 argv amount) with
      | none => RunResult.undefined
      | some (s2, none) => RunResult.noDecision s1.server s2.server
      | some (s2, some response2) =>
        match deliver s1 (decision response response2).2,
              deliver s2 (decision response response2).2 with
        | some (t1, ack), some (t2, ack2) =>
          RunResult.finished (main argv (response, response2) (ack.getD [], ack2.getD []))
            t1.server t2.server
        | _, _ => RunResult.undefined

/-! ## Descriptions used in the statements -/

/-- Whether a text, white space and sign already removed, starts with something
`stod` reads: `inf` or `nan` in any letter case, a digit, or a point followed by a
digit. -/
def startsNumber (t : Str) : Bool :=
  (t.take 3).map Char.toLower = "inf".toList || (t.take 3).map Char.toLower = "nan".toList ||
  match t with
  | [] => false
  | c :: rest =>
    (decDigit c).isSome ||
      (c = '.' && match rest with
        | [] => false
        | d :: _ => (decDigit d).isSome)

/-- Whether `stod` reads a number at the front of a text: after the white space
and an optional sign the text starts with a number. -/
def readable (s : Str) : Bool := startsNumber (readSign (s.dropWhile isspace)).2

/-- Whether the number at the front of a text, after the white space and an
optional sign, is a decimal or hexadecimal constant outside the range of `double`. -/
def exceedsRange (s : Str) : Bool :=
  (((readSign (s.dropWhile isspace)).2.take 3).map Char.toLower ≠ "inf".toList) &&
  (((readSign (s.dropWhile isspace)).2.take 3).map Char.toLower ≠ "nan".toList) &&
  match readMagnitude (readSign (s.dropWhile isspace)).2 with
  | none => false
  | some m => outOfRange m

/-! ## Sample data -/

/-- A command line of the coordinator: transfer 30 from `alice` at `hostA:8080`
to `bob` at `hostB:8081`. -/
def sampleArgv : List Str :=
  ["coordinator".toList, "log.txt".toList, "30".toList, "hostA".toList, "8080".toList,
   "alice".toList, "hostB".toList, "8081".toList, "bob".toList]

/-- An origin participant in `INIT` whose ledger holds `alice` with balance 100. -/
def sampleOrigin : P2Server :=
  ⟨[⟨"alice".toList, Dbl.fin 100⟩, ⟨"carol".toList, Dbl.fin 7⟩], State.INIT, Dbl.fin 0, [], true⟩

/-- A destination participant in `INIT` whose ledger holds `bob` with balance 50. -/
def sampleDestination : P2Server :=
  ⟨[⟨"bob".toList, Dbl.fin 50⟩], State.INIT, Dbl.fin 0, [], true⟩

/-- The origin participant once it has voted commit on a debit of 30 from `alice`. -/
def sampleReady : P2Server :=
  { sampleOrigin with amount := Dbl.fin (-30), accountName := "alice".toList,
                      state := State.READY }

/-- A participant loaded from a two-line account file, in `READY` for a transfer
of amount zero to `bob`. -/
def sampleLarge : P2Server :=
  ⟨[⟨"alice".toList, Dbl.fin 1234567⟩, ⟨"bob".toList, Dbl.fin 50⟩], State.READY, Dbl.fin 0,
    "bob".toList, true⟩

/-! ## Sequences of messages -/

/-- The participant after a sequence of messages, each handed to `process` in
turn.  An exception that leaves `process` and the call of `exit` end the program,
so the messages that follow are not processed; the result is `none` when
`process` has no defined behaviour. -/
def processAll (s : P2Server) : List Str → Option P2Server
  | [] => some s
  | m :: ms =>
    match process s m with
    | Outcome.returned _ s1 _ _ => processAll s1 ms
    | Outcome.threw s1 => some s1
    | Outcome.exited s1 => some s1
    | Outcome.undefined => none

/-! ## Further descriptions used in the statements -/

/-- Whether a balance is `>= 0` as a `double`: a NaN is not. -/
def nonNegative : Dbl → Bool
  | Dbl.fin q => decide (0 ≤ q)
  | Dbl.negZero => true
  | Dbl.inf s => !s
  | Dbl.nan => false
  | Dbl.negNan => false

/-- Whether some account of the ledger bears the name. -/
def hasAccount (accountVec : List Account) (accountName : Str) : Prop :=
  ∃ acc ∈ accountVec, acc.accountName = accountName

/-- The property every call of `process` keeps: the state is `INIT`, or it is
`READY` and an account of the ledger bears the stored name. -/
def settled (s : P2Server) : Prop :=
  s.state = State.INIT ∨ (s.state = State.READY ∧ hasAccount s.accountVec s.accountName)

/-- Whether a `double` is finite and `>= 0`. -/
def finiteNonNegative (d : Dbl) : Prop := ∃ b, d.finVal = some b ∧ 0 ≤ b

/-- Whether the amount field of a message, when `stod` reads it, is finite. -/
def finiteAmount (m : Str) : Bool :=
  match stod (headToken (tailText m)) with
  | none => true
  | some d => d.finVal.isSome

/-- The property kept by every call of `process` while amounts are finite: every
balance is `>= 0`, and in `READY` the balance of the account the amount is held
for stays `>= 0` once the amount is added. -/
def solvent (s : P2Server) : Prop :=
  (∀ acc ∈ s.accountVec, nonNegative acc.amount = true) ∧
  (s.state = State.INIT ∨
    (s.state = State.READY ∧
      ∃ it, s.accountVec[findAccount s.accountVec s.accountName]? = some it ∧
        nonNegative (it.amount.add s.amount) = true))

/-! ## Further sample data -/

/-- An origin participant in `INIT` whose ledger holds `alice` with balance 10. -/
def sampleShort : P2Server :=
  ⟨[⟨"alice".toList, Dbl.fin 10⟩], State.INIT, Dbl.fin 0, [], true⟩

/-- A destination participant in `INIT` whose ledger has no account `bob`. -/
def sampleStranger : P2Server :=
  ⟨[⟨"dave".toList, Dbl.fin 50⟩], State.INIT, Dbl.fin 0, [], true⟩

/-- A participant in `INIT` whose ledger, loaded from the file
`9007199254740992 alice`, holds `alice` with balance `2 ^ 53`. -/
def sampleHuge : P2Server :=
  ⟨[⟨"alice".toList, Dbl.fin (2 ^ 53)⟩], State.INIT, Dbl.fin 0, [], true⟩

/-! ## Lemmas on the library routines -/

/-- The product by `-1` of the source is unary minus. -/
theorem Dbl.mul_neg_one (x : Dbl) : x.mul (Dbl.fin (-1)) = x.neg := by
  cases x with
  | fin q =>
    by_cases hq : q = 0
    · subst hq
      simp [Dbl.mul, Dbl.neg, Dbl.finVal, Dbl.zero, Dbl.signBit, Dbl.isNaN]
    · simp [Dbl.mul, Dbl.neg, Dbl.finVal, Dbl.isNaN, hq]
  | negZero => simp [Dbl.mul, Dbl.neg, Dbl.finVal, Dbl.zero, Dbl.signBit, Dbl.isNaN]
  | inf s => simp [Dbl.mul, Dbl.neg, Dbl.finVal, Dbl.signBit, Dbl.isNaN]
  | nan => simp [Dbl.mul, Dbl.neg, Dbl.isNaN, Dbl.nanOf, Dbl.signBit]
  | negNan => simp [Dbl.mul, Dbl.neg, Dbl.isNaN, Dbl.nanOf, Dbl.signBit]

/-- On finite doubles `<` is the order of the numbers they denote. -/
theorem Dbl.lt_of_finVal (a b : Dbl) (x y : ℚ) (ha : a.finVal = some x) (hb : b.finVal = some y) :
    a.lt b = decide (x < y) := by
  cases a <;> cases b <;> simp_all [Dbl.finVal, Dbl.lt]

/-- Unary minus on a finite double is the opposite of the number it denotes. -/
theorem Dbl.finVal_neg (d : Dbl) (x : ℚ) (h : d.finVal = some x) : d.neg.finVal = some (-x) := by
  cases d with
  | fin q =>
    simp only [Dbl.finVal, Option.some.injEq] at h
    subst h
    by_cases hq : q = 0
    · subst hq
      simp [Dbl.neg, Dbl.finVal]
    · simp [Dbl.neg, Dbl.finVal, hq]
  | negZero =>
    simp only [Dbl.finVal, Option.some.injEq] at h
    subst h
    simp [Dbl.neg, Dbl.finVal]
  | inf s => simp [Dbl.finVal] at h
  | nan => simp [Dbl.finVal] at h
  | negNan => simp [Dbl.finVal] at h

/-- The rational `scale m b e` is not negative. -/
theorem scale_nonneg (m b : Nat) (e : Int) : 0 ≤ scale m b e := by
  unfold scale
  apply Rat.mkRat_nonneg
  positivity

/-- A rational `>= 0` rounds to a double `>= 0`. -/
theorem Dbl.nonNegative_round (q : ℚ) (h : 0 ≤ q) : nonNegative (Dbl.round q) = true := by
  have hq : ¬ q < 0 := not_lt.mpr h
  unfold Dbl.round
  split
  · simp [nonNegative]
  · split
    · simp [nonNegative, hq]
    · split
      · simp [nonNegative, hq, Dbl.zero]
      · simp only [nonNegative, hq, if_false, decide_eq_true_eq]
        exact scale_nonneg _ _ _

/-- The leading digit of a number below `2 ^ (j + 1)` is at position `j` at most. -/
theorem Dbl.ilog2_le_of_lt (fuel : Nat) :
    ∀ n j : Nat, n < 2 ^ (j + 1) → Dbl.ilog2 fuel n ≤ j := by
  induction fuel with
  | zero =>
    intro n j _
    simp [Dbl.ilog2]
  | succ f ih =>
    intro n j h
    unfold Dbl.ilog2
    split
    · exact Nat.zero_le _
    · rename_i h2
      cases j with
      | zero => omega
      | succ j =>
        have := ih (n / 2) j (by rw [pow_succ] at h; omega)
        omega

/-- A positive number is at least the power of two of its leading digit. -/
theorem Dbl.pow_ilog2_le (fuel : Nat) : ∀ n : Nat, 0 < n → 2 ^ Dbl.ilog2 fuel n ≤ n := by
  induction fuel with
  | zero =>
    intro n h
    simpa [Dbl.ilog2] using h
  | succ f ih =>
    intro n h
    unfold Dbl.ilog2
    split
    · simpa using h
    · rename_i h2
      have := ih (n / 2) (by omega)
      rw [pow_succ]
      omega

/-- Rounding `n / 1` gives `n`. -/
theorem roundHalfEven_one (n : Nat) : roundHalfEven n 1 = n := by
  simp [roundHalfEven, Nat.mod_one]

/-- A natural number up to `2 ^ 53` is its own nearest binary64 magnitude. -/
theorem Dbl.nearest_natCast (k : Nat) (hk : 0 < k) (h : k ≤ 2 ^ 53) :
    Dbl.nearest (k : ℚ) = k := by
  have hnum : ((k : ℚ)).num.toNat = k := by simp
  have hden : ((k : ℚ)).den = 1 := by simp
  have hL := Dbl.ilog2_le_of_lt k k 53 (by omega)
  have hlow := Dbl.pow_ilog2_le k k hk
  have hb : Dbl.binade (k : ℚ) = (Dbl.ilog2 k k : Int) := by
    unfold Dbl.binade
    rw [hnum, hden]
    have h1 : Dbl.ilog2 1 1 = 0 := rfl
    rw [h1, if_pos (by simpa using hlow)]
    simp
  have hq : Dbl.quantum (k : ℚ) = (Dbl.ilog2 k k : Int) - 52 := by
    unfold Dbl.quantum
    rw [hb]
    omega
  unfold Dbl.nearest
  rw [hq, hnum, hden]
  by_cases h53 : Dbl.ilog2 k k = 53
  · have hk2 : k = 2 ^ 53 := by
      rw [h53] at hlow
      omega
    rw [h53, hk2]
    decide!
  · have e1 : (-((Dbl.ilog2 k k : Int) - 52)).toNat = 52 - Dbl.ilog2 k k := by omega
    have e2 : ((Dbl.ilog2 k k : Int) - 52).toNat = 0 := by omega
    unfold scale
    rw [e1, e2]
    simp only [pow_zero, mul_one, roundHalfEven_one]
    rw [Rat.mkRat_eq_div]
    push_cast
    field_simp

/-- An integer of magnitude at most `2 ^ 53` is a binary64 number: rounding
leaves it as it is. -/
theorem Dbl.round_intCast (n : Int) (h : |n| ≤ 2 ^ 53) : Dbl.round (n : ℚ) = Dbl.fin n := by
  by_cases h0 : n = 0
  · subst h0
    simp [Dbl.round]
  · have hk : 0 < n.natAbs := Int.natAbs_pos.mpr h0
    have hk2 : n.natAbs ≤ 2 ^ 53 := by
      have : (n.natAbs : Int) ≤ 2 ^ 53 := by rwa [Int.natCast_natAbs]
      exact_mod_cast this
    have habs : |(n : ℚ)| = (n.natAbs : ℚ) := by
      rw [Nat.cast_natAbs, Int.cast_abs]
    have hn := Dbl.nearest_natCast n.natAbs hk hk2
    have hq0 : (n : ℚ) ≠ 0 := by exact_mod_cast h0
    unfold Dbl.round
    rw [if_neg hq0, habs, hn]
    have hbig : ¬ (2 : ℚ) ^ 1024 ≤ (n.natAbs : ℚ) := by
      have h1 : (n.natAbs : ℚ) ≤ 2 ^ 53 := by exact_mod_cast hk2
      have h2 : (2 : ℚ) ^ 53 < 2 ^ 1024 := by norm_num
      intro h3
      linarith
    have hnz : ¬ (n.natAbs : ℚ) = 0 := by
      have : (0 : ℚ) < (n.natAbs : ℚ) := by exact_mod_cast hk
      exact ne_of_gt this
    rw [if_neg hbig, if_neg hnz]
    congr 1
    by_cases hneg : n < 0
    · have : (n : ℚ) < 0 := by exact_mod_cast hneg
      rw [if_pos this, Nat.cast_natAbs, abs_of_neg hneg]
      push_cast
      ring
    · have : ¬ (n : ℚ) < 0 := by
        intro h'
        exact hneg (by exact_mod_cast h')
      rw [if_neg this, Nat.cast_natAbs, abs_of_nonneg (not_lt.mp hneg)]

/-- The sum of two integers held as doubles is exact while its magnitude is at
most `2 ^ 53`. -/
theorem Dbl.add_intCast (m n : Int) (h : |m + n| ≤ 2 ^ 53) :
    (Dbl.fin m).add (Dbl.fin n) = Dbl.fin ((m + n : Int) : ℚ) := by
  have := Dbl.round_intCast (m + n) h
  simp only [Dbl.add]
  rw [← this]
  push_cast
  rfl

/-- With enough fuel, a number is below the power of two after its leading digit. -/
theorem Dbl.lt_pow_ilog2 (fuel : Nat) :
    ∀ n : Nat, n ≤ fuel → n < 2 ^ (Dbl.ilog2 fuel n + 1) := by
  induction fuel with
  | zero =>
    intro n h
    simp [Dbl.ilog2]
    omega
  | succ f ih =>
    intro n h
    unfold Dbl.ilog2
    split
    · simp
      omega
    · rename_i h2
      have := ih (n / 2) (by omega)
      rw [pow_succ]
      omega

/-- Bounds on a quotient of natural numbers from bounds by powers of two. -/
theorem Dbl.binade_bounds (N D a b : Nat) (hD : 0 < D)
    (ha1 : 2 ^ a ≤ N) (ha2 : N < 2 ^ (a + 1)) (hb1 : 2 ^ b ≤ D) (hb2 : D < 2 ^ (b + 1)) :
    (D * 2 ^ a ≤ N * 2 ^ b →
      (2 : ℚ) ^ ((a : Int) - b) ≤ (N : ℚ) / D ∧ (N : ℚ) / D < (2 : ℚ) ^ ((a : Int) - b + 1)) ∧
    (¬ D * 2 ^ a ≤ N * 2 ^ b →
      (2 : ℚ) ^ ((a : Int) - b - 1) ≤ (N : ℚ) / D ∧
        (N : ℚ) / D < (2 : ℚ) ^ ((a : Int) - b - 1 + 1)) := by
  have hDq : (0 : ℚ) < D := by exact_mod_cast hD
  have h2b : (0 : ℚ) < 2 ^ b := by positivity
  have e1 : (2 : ℚ) ^ ((a : Int) - b) = 2 ^ a / 2 ^ b := by
    rw [zpow_sub₀ (by norm_num), zpow_natCast, zpow_natCast]
  have e2 : (2 : ℚ) ^ ((a : Int) - b + 1) = 2 ^ (a + 1) / 2 ^ b := by
    have : ((a : Int) - b + 1) = ((a + 1 : Nat) : Int) - b := by push_cast; ring
    rw [this, zpow_sub₀ (by norm_num), zpow_natCast, zpow_natCast]
  have e3 : (2 : ℚ) ^ ((a : Int) - b - 1) = 2 ^ a / 2 ^ (b + 1) := by
    have : ((a : Int) - b - 1) = (a : Int) - ((b + 1 : Nat) : Int) := by push_cast; ring
    rw [this, zpow_sub₀ (by norm_num), zpow_natCast, zpow_natCast]
  have q1 : ((2 : ℚ) ^ a) ≤ N := by exact_mod_cast ha1
  have q2 : (N : ℚ) < 2 ^ (a + 1) := by exact_mod_cast ha2
  have q3 : ((2 : ℚ) ^ b) ≤ D := by exact_mod_cast hb1
  have q4 : (D : ℚ) < 2 ^ (b + 1) := by exact_mod_cast hb2
  constructor
  · intro hc
    have qc : (D : ℚ) * 2 ^ a ≤ N * 2 ^ b := by exact_mod_cast hc
    rw [e1, e2]
    constructor
    · rw [div_le_div_iff₀ h2b hDq]
      linarith
    · rw [div_lt_div_iff₀ hDq h2b]
      calc (N : ℚ) * 2 ^ b < 2 ^ (a + 1) * 2 ^ b := by
            exact mul_lt_mul_of_pos_right q2 h2b
        _ ≤ 2 ^ (a + 1) * D := by
            exact mul_le_mul_of_nonneg_left q3 (by positivity)
  · intro hc
    have qc : (N : ℚ) * 2 ^ b < D * 2 ^ a := by exact_mod_cast not_le.mp hc
    have : ((a : Int) - b - 1 + 1) = (a : Int) - b := by ring
    rw [this, e1, e3]
    constructor
    · rw [div_le_div_iff₀ (by positivity) hDq]
      calc (2 : ℚ) ^ a * D ≤ 2 ^ a * 2 ^ (b + 1) := by
            exact mul_le_mul_of_nonneg_left (le_of_lt q4) (by positivity)
        _ ≤ N * 2 ^ (b + 1) := by
            exact mul_le_mul_of_nonneg_right q1 (by positivity)
    · rw [div_lt_div_iff₀ hDq h2b]
      linarith

/-- The binary exponent: `2 ^ binade m ≤ m < 2 ^ (binade m + 1)` for `m > 0`. -/
theorem Dbl.binade_spec (m : ℚ) (hm : 0 < m) :
    (2 : ℚ) ^ Dbl.binade m ≤ m ∧ m < (2 : ℚ) ^ (Dbl.binade m + 1) := by
  have hnum : 0 < m.num := Rat.num_pos.mpr hm
  have hN : 0 < m.num.toNat := by omega
  have hD : 0 < m.den := m.den_pos
  have hNq : (m.num.toNat : ℚ) = (m.num : ℚ) := by
    have : ((m.num.toNat : Int) : ℚ) = (m.num : ℚ) := by
      rw [Int.toNat_of_nonneg (le_of_lt hnum)]
    exact_mod_cast this
  have hmeq : (m.num.toNat : ℚ) / (m.den : ℚ) = m := by
    rw [hNq]
    exact Rat.num_div_den m
  have hb := Dbl.binade_bounds m.num.toNat m.den _ _ hD
    (Dbl.pow_ilog2_le m.num.toNat m.num.toNat hN)
    (Dbl.lt_pow_ilog2 m.num.toNat m.num.toNat le_rfl)
    (Dbl.pow_ilog2_le m.den m.den hD)
    (Dbl.lt_pow_ilog2 m.den m.den le_rfl)
  rw [hmeq] at hb
  unfold Dbl.binade
  split
  · rename_i hc
    exact hb.1 hc
  · rename_i hc
    exact hb.2 hc

/-- The rounding `roundHalfEven n d` is within one half of `n / d`, and is even
when it is exactly one half away. -/
theorem roundHalfEven_spec (n d : Nat) (hd : 0 < d) :
    2 * (roundHalfEven n d * d) ≤ 2 * n + d ∧ 2 * n ≤ 2 * (roundHalfEven n d * d) + d ∧
    ((2 * (roundHalfEven n d * d) = 2 * n + d ∨ 2 * n = 2 * (roundHalfEven n d * d) + d) →
      roundHalfEven n d % 2 = 0) := by
  have h1 := Nat.div_add_mod n d
  have h2 := Nat.mod_lt n hd
  have e1 : (n / d + 1) * d = d * (n / d) + d := by ring
  have e2 : n / d * d = d * (n / d) := by ring
  unfold roundHalfEven
  split
  · rw [e2]
    omega
  · split
    · rw [e1]
      omega
    · split
      · rw [e2]
        omega
      · rw [e1]
        omega

/-- A power of two with an integer exponent as a quotient of powers with natural
exponents. -/
theorem two_zpow_eq (c : Int) : (2 : ℚ) ^ c = 2 ^ c.toNat / 2 ^ (-c).toNat := by
  rcases Int.le_total 0 c with h | h
  · have h1 : (-c).toNat = 0 := by omega
    have h2 : (c.toNat : Int) = c := Int.toNat_of_nonneg h
    rw [h1, pow_zero, div_one, ← zpow_natCast, h2]
  · have h1 : c.toNat = 0 := by omega
    have h2 : ((-c).toNat : Int) = -c := Int.toNat_of_nonneg (by omega)
    rw [h1, pow_zero, one_div, ← zpow_natCast, h2, zpow_neg, inv_inv]

/-- The rational `scale m 2 e` is `m * 2 ^ e`. -/
theorem scale_two (m : Nat) (e : Int) : scale m 2 e = m * (2 : ℚ) ^ e := by
  unfold scale
  rw [Rat.mkRat_eq_div, two_zpow_eq]
  push_cast
  ring

/-- A rounded numerator, put back on the scale `2 ^ c`, is within half of
`2 ^ c` of the rational it rounds. -/
theorem Dbl.nearest_bounds (m : ℚ) (N D R p n : Nat) (c : Int) (hD : 0 < D)
    (hNm : (N : ℚ) = m * D) (hS : (2 : ℚ) ^ c = 2 ^ p / 2 ^ n)
    (hm2 : m < (2 : ℚ) ^ c * 2 ^ 53)
    (r1 : 2 * (R * (D * 2 ^ p)) ≤ 2 * (N * 2 ^ n) + D * 2 ^ p)
    (r2 : 2 * (N * 2 ^ n) ≤ 2 * (R * (D * 2 ^ p)) + D * 2 ^ p)
    (r3 : (2 * (R * (D * 2 ^ p)) = 2 * (N * 2 ^ n) + D * 2 ^ p ∨
        2 * (N * 2 ^ n) = 2 * (R * (D * 2 ^ p)) + D * 2 ^ p) → R % 2 = 0) :
    R ≤ 2 ^ 53 ∧ |(R : ℚ) * 2 ^ c - m| ≤ (2 : ℚ) ^ c / 2 ∧
      (|(R : ℚ) * 2 ^ c - m| = (2 : ℚ) ^ c / 2 → R % 2 = 0) := by
  have hDq : (0 : ℚ) < D := by exact_mod_cast hD
  have hPp : (0 : ℚ) < 2 ^ p := by positivity
  have hPn : (0 : ℚ) < 2 ^ n := by positivity
  have q1 : 2 * ((R : ℚ) * (D * 2 ^ p)) ≤ 2 * (N * 2 ^ n) + D * 2 ^ p := by
    exact_mod_cast r1
  have q2 : 2 * ((N : ℚ) * 2 ^ n) ≤ 2 * (R * (D * 2 ^ p)) + D * 2 ^ p := by
    exact_mod_cast r2
  have hdiff : (R : ℚ) * (2 : ℚ) ^ c - m =
      (R * (D * 2 ^ p) - N * 2 ^ n) / (D * 2 ^ n) := by
    rw [hS, hNm]
    field_simp
    ring
  have hden : (0 : ℚ) < D * 2 ^ n := by positivity
  have hhalf : (2 : ℚ) ^ c / 2 = (D * 2 ^ p / 2) / (D * 2 ^ n) := by
    rw [hS]
    field_simp
    ring
  refine ⟨?_, ?_, ?_⟩
  · have h3 : (N : ℚ) * 2 ^ n < 2 ^ 53 * (D * 2 ^ p) := by
      rw [hNm]
      rw [hS] at hm2
      have := mul_lt_mul_of_pos_right hm2 (mul_pos hDq hPn)
      calc m * (D : ℚ) * 2 ^ n = m * ((D : ℚ) * 2 ^ n) := by ring
        _ < 2 ^ p / 2 ^ n * 2 ^ 53 * ((D : ℚ) * 2 ^ n) := this
        _ = 2 ^ 53 * ((D : ℚ) * 2 ^ p) := by
          field_simp
          ring
    have h4 : 2 * (R : ℚ) * (D * 2 ^ p) < (2 ^ 54 + 1) * (D * 2 ^ p) := by
      linarith
    have h5 : 2 * (R : ℚ) < 2 ^ 54 + 1 :=
      lt_of_mul_lt_mul_right h4 (le_of_lt (mul_pos hDq hPp))
    have h7 : 2 * R < 2 ^ 54 + 1 := by exact_mod_cast h5
    omega
  · rw [hdiff, hhalf, abs_div, abs_of_pos hden]
    apply div_le_div_of_nonneg_right _ (le_of_lt hden)
    rw [abs_le]
    constructor <;> linarith
  · intro htie
    rw [hdiff, hhalf, abs_div, abs_of_pos hden, div_left_inj' (ne_of_gt hden)] at htie
    apply r3
    rcases abs_choice ((R : ℚ) * (D * 2 ^ p) - N * 2 ^ n) with h | h
    · rw [h] at htie
      left
      have h8 : 2 * ((R : ℚ) * (D * 2 ^ p)) = 2 * (N * 2 ^ n) + D * 2 ^ p := by
        linarith
      exact_mod_cast h8
    · rw [h] at htie
      right
      have h8 : 2 * ((N : ℚ) * 2 ^ n) = 2 * (R * (D * 2 ^ p)) + D * 2 ^ p := by
        linarith
      exact_mod_cast h8

/-- The nearest binary64 magnitude: `nearest m` is a multiple `R * 2 ^ quantum m`
with `R ≤ 2 ^ 53`, at most half of `2 ^ quantum m` away from `m`, and `R` is even
when it is exactly that far. -/
theorem Dbl.nearest_spec (m : ℚ) (hm : 0 < m) :
    ∃ R : Nat, Dbl.nearest m = R * (2 : ℚ) ^ Dbl.quantum m ∧ R ≤ 2 ^ 53 ∧
      |Dbl.nearest m - m| ≤ (2 : ℚ) ^ Dbl.quantum m / 2 ∧
      (|Dbl.nearest m - m| = (2 : ℚ) ^ Dbl.quantum m / 2 → R % 2 = 0) := by
  have hnum : 0 < m.num := Rat.num_pos.mpr hm
  have hD : 0 < m.den := m.den_pos
  have hDq : (0 : ℚ) < m.den := by exact_mod_cast hD
  have hNq : (m.num.toNat : ℚ) = (m.num : ℚ) := by
    have : ((m.num.toNat : Int) : ℚ) = (m.num : ℚ) := by
      rw [Int.toNat_of_nonneg (le_of_lt hnum)]
    exact_mod_cast this
  have hmeq : (m.num.toNat : ℚ) / (m.den : ℚ) = m := by
    rw [hNq]
    exact Rat.num_div_den m
  have hNm : (m.num.toNat : ℚ) = m * m.den := (div_eq_iff (ne_of_gt hDq)).mp hmeq
  obtain ⟨-, hupper⟩ := Dbl.binade_spec m hm
  have hq : Dbl.binade m + 1 ≤ Dbl.quantum m + 53 := by
    unfold Dbl.quantum
    omega
  have hD' : 0 < m.den * 2 ^ (Dbl.quantum m).toNat := by positivity
  obtain ⟨r1, r2, r3⟩ := roundHalfEven_spec
    (m.num.toNat * 2 ^ (-(Dbl.quantum m)).toNat) (m.den * 2 ^ (Dbl.quantum m).toNat) hD'
  have hn : Dbl.nearest m =
      (roundHalfEven (m.num.toNat * 2 ^ (-(Dbl.quantum m)).toNat)
        (m.den * 2 ^ (Dbl.quantum m).toNat) : ℚ) * (2 : ℚ) ^ Dbl.quantum m := by
    unfold Dbl.nearest
    exact scale_two _ _
  have hS53 : (2 : ℚ) ^ (Dbl.quantum m + 53) = (2 : ℚ) ^ Dbl.quantum m * 2 ^ 53 := by
    rw [zpow_add₀ (by norm_num)]
    norm_num
  have hm2 : m < (2 : ℚ) ^ Dbl.quantum m * 2 ^ 53 := by
    rw [← hS53]
    exact lt_of_lt_of_le hupper (zpow_le_zpow_right₀ (by norm_num) hq)
  obtain ⟨b1, b2, b3⟩ := Dbl.nearest_bounds m m.num.toNat m.den _ _ _ (Dbl.quantum m) hD hNm
    (two_zpow_eq (Dbl.quantum m)) hm2 r1 r2 r3
  rw [← hn] at b2 b3
  exact ⟨_, hn, b1, b2, b3⟩

/-- A finite result of the rounding is at most half a unit in the last place
away from the rational rounded. -/
theorem Dbl.round_error (q r : ℚ) (h : Dbl.round q = Dbl.fin r) :
    |r - q| ≤ (2 : ℚ) ^ Dbl.quantum |q| / 2 := by
  by_cases h0 : q = 0
  · subst h0
    have : r = 0 := by
      simp only [Dbl.round, if_true] at h
      injection h with h
      exact h.symm
    subst this
    simp only [sub_zero, abs_zero]
    positivity
  · have hpos : 0 < |q| := abs_pos.mpr h0
    obtain ⟨R, -, -, hb, -⟩ := Dbl.nearest_spec |q| hpos
    unfold Dbl.round at h
    rw [if_neg h0] at h
    split at h
    · exact Dbl.noConfusion h
    · split at h
      · rename_i hz
        rw [hz] at hb
        have hr : r = 0 := by
          unfold Dbl.zero at h
          split at h
          · exact Dbl.noConfusion h
          · injection h with h
            exact h.symm
        subst hr
        rw [zero_sub, abs_neg] at hb ⊢
        rwa [abs_abs] at hb
      · injection h with h
        subst h
        by_cases hneg : q < 0
        · rw [if_pos hneg]
          rw [abs_of_neg hneg] at hb ⊢
          have : -Dbl.nearest (-q) - q = -(Dbl.nearest (-q) - -q) := by ring
          rw [this, abs_neg]
          exact hb
        · rw [if_neg hneg]
          rw [abs_of_nonneg (not_lt.mp hneg)] at hb ⊢
          exact hb

/-- The rounding on sample values: a tie goes to the even neighbour, `0.1` is read
as the double `3602879701896397 / 2 ^ 55`, the largest double added to itself
overflows, adding less than half a unit in its last place leaves it unchanged,
and the sum of opposite infinities is the NaN printed `-nan`. -/
theorem Dbl.round_samples :
    Dbl.round (2 ^ 53 + 1) = Dbl.fin (2 ^ 53) ∧
    Dbl.round (2 ^ 53 + 3) = Dbl.fin (2 ^ 53 + 4) ∧
    Dbl.round (1 / 10) = Dbl.fin (3602879701896397 / 2 ^ 55) ∧
    stod "0.1".toList = some (Dbl.fin (3602879701896397 / 2 ^ 55)) ∧
    stod "-9007199254740993".toList = some (Dbl.fin (-(2 ^ 53))) ∧
    (Dbl.fin (2 ^ 1024 - 2 ^ 971)).add (Dbl.fin (2 ^ 1024 - 2 ^ 971)) = Dbl.inf false ∧
    (Dbl.fin (2 ^ 1024 - 2 ^ 971)).add (Dbl.fin (2 ^ 969)) = Dbl.fin (2 ^ 1024 - 2 ^ 971) ∧
    (Dbl.inf false).add (Dbl.inf true) = Dbl.negNan ∧
    to_string Dbl.negNan = "-nan".toList ∧
    (stod "nan".toList).map (fun d => to_string d.neg) = some "-nan".toList := by
  refine ⟨?_, ?_, ?_, ?_, ?_, ?_, ?_, ?_, ?_, ?_⟩ <;> decide!

/-- The iterator loop stops on the first account with the name: what it points
to is what `find?` returns. -/
theorem getElem?_findAccount (accountVec : List Account) (a : Str) :
    accountVec[findAccount accountVec a]? = accountVec.find? (fun acc => acc.accountName = a) := by
  induction accountVec with
  | nil => simp [findAccount]
  | cons hd tl ih =>
    by_cases h : hd.accountName = a
    · simp [findAccount, List.findIdx_cons, Account.getAccountName, h]
    · simp [findAccount, List.findIdx_cons, Account.getAccountName, h] at ih ⊢
      exact ih

theorem process_of_init (s : P2Server) (request : Str) (h : s.state = State.INIT) :
    process s request = processInit s request := by
  simp only [process, h]

theorem process_of_ready (s : P2Server) (request : Str) (h : s.state = State.READY) :
    process s request = processReady s request := by
  simp only [process, h]

/-- What `process` does in `INIT` on a request whose first word is `VOTE-REQUEST`
and whose amount field `stod` reads as `x`. -/
theorem process_vote_request (s : P2Server) (request : Str) (x : Dbl)
    (hstate : s.state = State.INIT)
    (hhead : headToken request = "VOTE-REQUEST".toList)
    (hamount : stod (headToken (tailText request)) = some x) :
    process s request =
      vote { s with amount := x, accountName := tailText (tailText request) } := by
  rw [process_of_init s request hstate]
  simp only [processInit, hhead, hamount, ne_eq, not_true_eq_false, if_false]

/-- The vote is an abort exactly when no account has the name, or the amount is
negative and the first account with the name holds less than its opposite. -/
theorem voteAbort_iff (s : P2Server) :
    voteAbort s = true ↔
      (∀ acc ∈ s.accountVec, acc.accountName ≠ s.accountName) ∨
      (s.amount.lt (Dbl.fin 0) = true ∧
        ∃ acc, s.accountVec.find? (fun acc => acc.accountName = s.accountName) = some acc ∧
          acc.amount.lt s.amount.neg = true) := by
  unfold voteAbort
  rw [getElem?_findAccount, Dbl.mul_neg_one]
  cases hf : s.accountVec.find? (fun acc => acc.accountName = s.accountName) with
  | none =>
    simp only [true_iff]
    left
    intro acc hacc
    have := List.find?_eq_none.mp hf acc hacc
    simpa using this
  | some it =>
    have hmem := List.mem_of_find?_eq_some hf
    have hname := List.find?_some hf
    simp only [Bool.and_eq_true, Account.getAmount, Option.some.injEq, exists_eq_left']
    constructor
    · intro h
      exact Or.inr h
    · rintro (h | h)
      · exact absurd (by simpa using hname) (h it hmem)
      · exact h

/-- The test of the vote once the iterator loop has found an account. -/
theorem voteAbort_of_find (s : P2Server) (acc : Account)
    (h : s.accountVec.find? (fun a => a.accountName = s.accountName) = some acc) :
    voteAbort s = (s.amount.lt (Dbl.fin 0) && acc.amount.lt s.amount.neg) := by
  unfold voteAbort
  rw [getElem?_findAccount, Dbl.mul_neg_one, h]
  rfl

/-- The reply of the vote is `VOTE-ABORT` exactly when the test of the vote
holds, and `VOTE-COMMIT` exactly when it fails. -/
theorem vote_replies (s : P2Server) :
    ((vote s).replies = ["VOTE-ABORT".toList] ↔ voteAbort s = true) ∧
    ((vote s).replies = ["VOTE-COMMIT".toList] ↔ voteAbort s = false) := by
  unfold vote
  cases voteAbort s with
  | true => exact ⟨by simp [Outcome.replies], by simp [Outcome.replies]⟩
  | false => exact ⟨by simp [Outcome.replies], by simp [Outcome.replies]⟩

/-- The test `amount < 0 && balance < -amount` on the values of the doubles. -/
theorem Dbl.insufficient (x d : Dbl) :
    (∀ qx qb, x.finVal = some qx → d.finVal = some qb →
      ((x.lt (Dbl.fin 0) && d.lt x.neg) = true ↔ (qx < 0 ∧ qb < -qx))) ∧
    (x = Dbl.inf true →
      ((x.lt (Dbl.fin 0) && d.lt x.neg) = true ↔ (d ≠ Dbl.inf false ∧ d.isNaN = false))) ∧
    (∀ qx, x.finVal = some qx → d = Dbl.inf true →
      ((x.lt (Dbl.fin 0) && d.lt x.neg) = true ↔ qx < 0)) ∧
    ((d = Dbl.inf false ∨ d.isNaN = true ∨ x = Dbl.inf false ∨ x.isNaN = true) →
      (x.lt (Dbl.fin 0) && d.lt x.neg) = false) := by
  refine ⟨?_, ?_, ?_, ?_⟩
  · intro qx qb hx hd
    have h0 : (Dbl.fin 0).finVal = some 0 := rfl
    rw [Dbl.lt_of_finVal _ _ qx 0 hx h0, Dbl.lt_of_finVal _ _ qb (-qx) hd (Dbl.finVal_neg _ qx hx)]
    simp
  · intro hx
    subst hx
    cases d <;> simp [Dbl.lt, Dbl.neg, Dbl.isNaN, Dbl.finVal]
  · intro qx hx hd
    subst hd
    have h0 : (Dbl.fin 0).finVal = some 0 := rfl
    rw [Dbl.lt_of_finVal _ _ qx 0 hx h0]
    cases x with
    | fin q =>
      by_cases hq : q = 0
      · simp_all [Dbl.lt, Dbl.neg, Dbl.finVal]
      · simp_all [Dbl.lt, Dbl.neg, Dbl.finVal]
    | negZero => simp_all [Dbl.lt, Dbl.neg, Dbl.finVal]
    | inf s => simp [Dbl.finVal] at hx
    | nan => simp [Dbl.finVal] at hx
    | negNan => simp [Dbl.finVal] at hx
  · rintro (h | h | h | h)
    · subst h
      cases x with
      | fin q =>
        by_cases hq : q = 0
        · simp [Dbl.lt, Dbl.neg, Dbl.finVal, hq]
        · simp [Dbl.lt, Dbl.neg, Dbl.finVal, hq]
      | negZero => simp [Dbl.lt, Dbl.neg, Dbl.finVal]
      | inf s => simp [Dbl.lt, Dbl.neg, Dbl.finVal]
      | nan => simp [Dbl.lt, Dbl.neg, Dbl.finVal]
      | negNan => simp [Dbl.lt, Dbl.neg, Dbl.finVal]
    · cases d <;> simp [Dbl.isNaN] at h <;> cases x <;> simp [Dbl.lt, Dbl.neg]
    · subst h
      simp [Dbl.lt, Dbl.finVal]
    · cases x <;> simp [Dbl.isNaN] at h <;> simp [Dbl.lt]

/-- A call of `process` that returns `true` was a commit vote taken in `INIT`. -/
theorem process_returned_true (s s1 : P2Server) (request : Str) (replies : List Str)
    (written : Option Str) (hvote : process s request = Outcome.returned true s1 replies written) :
    s.state = State.INIT ∧ headToken request = "VOTE-REQUEST".toList ∧
      stod (headToken (tailText request)) = some s1.amount ∧
      s1 = { s with amount := s1.amount, accountName := tailText (tailText request),
                    state := State.READY } ∧
      voteAbort { s with amount := s1.amount, accountName := tailText (tailText request) } = false ∧
      replies = ["VOTE-COMMIT".toList] ∧ written = none := by
  cases hst : s.state with
  | INIT =>
    rw [process_of_init s request hst, processInit] at hvote
    split at hvote
    · simp only [Outcome.returned.injEq, Bool.false_eq_true, false_and] at hvote
    · rename_i hhead
      split at hvote
      · exact Outcome.noConfusion hvote
      · rename_i x hx
        rw [vote] at hvote
        split at hvote
        · simp only [Outcome.returned.injEq, Bool.false_eq_true, false_and] at hvote
        · rename_i hv
          simp only [Outcome.returned.injEq, true_and] at hvote
          obtain ⟨h1, h2, h3⟩ := hvote
          subst h1
          refine ⟨rfl, by simpa using hhead, hx, rfl, by simpa using hv, h2.symm, h3.symm⟩
  | READY =>
    rw [process_of_ready s request hst, processReady] at hvote
    split at hvote
    · simp only [Outcome.returned.injEq, Bool.false_eq_true, false_and] at hvote
    · split at hvote
      · split at hvote
        · exact Outcome.noConfusion hvote
        · split at hvote
          · simp only [Outcome.returned.injEq, Bool.false_eq_true, false_and] at hvote
          · exact Outcome.noConfusion hvote
      · simp only [Outcome.returned.injEq, Bool.false_eq_true, false_and] at hvote
  | ABORT => simp only [process, hst, Outcome.returned.injEq, Bool.false_eq_true, false_and] at hvote
  | COMMIT => simp only [process, hst, Outcome.returned.injEq, Bool.false_eq_true, false_and] at hvote

/-! ## The claims -/

/-- C1: whatever the two vote replies read by the coordinator, `committed` is true
exactly when both are `VOTE-COMMIT`; then `GLOBAL-COMMIT` is the request sent after
the vote request on both sessions, and for every other pair of strings it is
`GLOBAL-ABORT` with `committed` false. -/
theorem main_commits_iff_both_vote_commit (argv : List Str) (amount : Dbl)
    (votes acks : Str × Str) (hsetup : setup argv = Setup.go amount) :
    ∃ run, main argv votes acks = MainResult.success run ∧
      (run.committed = true ↔
        votes.1 = "VOTE-COMMIT".toList ∧ votes.2 = "VOTE-COMMIT".toList) ∧
      (votes.1 = "VOTE-COMMIT".toList ∧ votes.2 = "VOTE-COMMIT".toList →
        run.sent = [message argv amount, "GLOBAL-COMMIT".toList] ∧
        run.sent2 = [message2 argv amount, "GLOBAL-COMMIT".toList] ∧
        run.committed = true) ∧
      (¬ (votes.1 = "VOTE-COMMIT".toList ∧ votes.2 = "VOTE-COMMIT".toList) →
        run.sent = [message argv amount, "GLOBAL-ABORT".toList] ∧
        run.sent2 = [message2 argv amount, "GLOBAL-ABORT".toList] ∧
        run.committed = false) := by
  by_cases h : votes.1 = "VOTE-COMMIT".toList ∧ votes.2 = "VOTE-COMMIT".toList
  · refine ⟨_, by simp only [main, hsetup]; rfl, ?_, ?_, ?_⟩
    · simp only [decision, h, and_self, if_true]
    · intro _
      simp only [decision, h, and_self, if_true]
    · intro hn
      exact absurd h hn
  · refine ⟨_, by simp only [main, hsetup]; rfl, ?_, ?_, ?_⟩
    · simp only [decision, h, if_false, Bool.false_eq_true]
    · intro hp
      exact absurd hp h
    · intro _
      simp only [decision, h, if_false, and_self]

/-- Witness of C1: on the sample command line with replies `VOTE-COMMIT` and
`VOTE-ABORT` the run is not committed. -/
theorem main_commits_iff_both_vote_commit_witness :
    setup sampleArgv = Setup.go (Dbl.fin 30) ∧
    ∃ run, main sampleArgv ("VOTE-COMMIT".toList, "VOTE-ABORT".toList) ([], []) =
        MainResult.success run ∧ run.committed = false :=
  ⟨by decide!, by
    obtain ⟨run, h1, _, _, h4⟩ :=
      main_commits_iff_both_vote_commit sampleArgv (Dbl.fin 30)
        ("VOTE-COMMIT".toList, "VOTE-ABORT".toList) ([], []) (by decide!)
    exact ⟨run, h1, (h4 (by decide)).2.2⟩⟩

/-- The four ways the `INIT` branch ends. -/
theorem processInit_cases (p : P2Server) (m : Str) :
    processInit p m = Outcome.returned false p [] none ∨
    processInit p m = Outcome.threw p ∨
    (∃ s1, processInit p m = Outcome.returned false s1 ["VOTE-ABORT".toList] none ∧
      s1.accountVec = p.accountVec ∧ s1.state = p.state) ∨
    (∃ s1, processInit p m = Outcome.returned true s1 ["VOTE-COMMIT".toList] none ∧
      s1.accountVec = p.accountVec ∧ s1.state = State.READY ∧ voteAbort s1 = false) := by
  unfold processInit
  split
  · exact Or.inl rfl
  · split
    · exact Or.inr (Or.inl rfl)
    · unfold vote
      split
      · exact Or.inr (Or.inr (Or.inl ⟨_, rfl, rfl, rfl⟩))
      · rename_i hv
        refine Or.inr (Or.inr (Or.inr ⟨_, rfl, rfl, rfl, ?_⟩))
        simpa [voteAbort] using hv

/-- C3: in `INIT`, a `VOTE-REQUEST` whose fields the participant reads as amount `x`
(the binary64 number `stod` reads in the amount field) and account name `a` is
answered `VOTE-ABORT` exactly when no account is named `a` (exact comparison of
the names), or `x < 0` and the balance of the first account named `a` is below
`-x`; otherwise the reply is `VOTE-COMMIT`, `(a, x)` is stored and the state
becomes `READY`.  A request with `x` not negative for an existing account is
always answered `VOTE-COMMIT`.  The comparisons are those of the numbers: when
an account is named `a`, with `b` the balance of the first one, and `x` and `b`
are finite, the reply is `VOTE-ABORT` exactly when `x < 0` and `b < -x` as
rationals; the amount `-inf` is refused unless `b` is `+inf` or a NaN; against
the balance `-inf` exactly the finite amounts `x < 0` are refused; and when `b`
is `+inf` or a NaN, or `x` is `+inf` or a NaN, the reply is `VOTE-COMMIT`. -/
theorem vote_abort_iff_missing_or_insufficient (s : P2Server) (request : Str) (x : Dbl)
    (hstate : s.state = State.INIT)
    (hhead : headToken request = "VOTE-REQUEST".toList)
    (hamount : stod (headToken (tailText request)) = some x) :
    ((process s request).replies = ["VOTE-ABORT".toList] ↔
      ((∀ acc ∈ s.accountVec, acc.accountName ≠ tailText (tailText request)) ∨
        (x.lt (Dbl.fin 0) = true ∧
          ∃ acc, s.accountVec.find? (fun acc => acc.accountName = tailText (tailText request))
              = some acc ∧ acc.amount.lt x.neg = true))) ∧
    (¬ ((∀ acc ∈ s.accountVec, acc.accountName ≠ tailText (tailText request)) ∨
        (x.lt (Dbl.fin 0) = true ∧
          ∃ acc, s.accountVec.find? (fun acc => acc.accountName = tailText (tailText request))
              = some acc ∧ acc.amount.lt x.neg = true)) →
      process s request =
        Outcome.returned true
          { s with amount := x, accountName := tailText (tailText request),
                   state := State.READY }
          ["VOTE-COMMIT".toList] none) ∧
    (x.lt (Dbl.fin 0) = false →
      (∃ acc ∈ s.accountVec, acc.accountName = tailText (tailText request)) →
      (process s request).replies = ["VOTE-COMMIT".toList]) ∧
    (∀ acc, s.accountVec.find? (fun acc => acc.accountName = tailText (tailText request))
        = some acc →
      (∀ qx qb, x.finVal = some qx → acc.amount.finVal = some qb →
        ((process s request).replies = ["VOTE-ABORT".toList] ↔ (qx < 0 ∧ qb < -qx))) ∧
      (x = Dbl.inf true →
        ((process s request).replies = ["VOTE-ABORT".toList] ↔
          (acc.amount ≠ Dbl.inf false ∧ acc.amount.isNaN = false))) ∧
      (∀ qx, x.finVal = some qx → acc.amount = Dbl.inf true →
        ((process s request).replies = ["VOTE-ABORT".toList] ↔ qx < 0)) ∧
      ((acc.amount = Dbl.inf false ∨ acc.amount.isNaN = true ∨
          x = Dbl.inf false ∨ x.isNaN = true) →
        (process s request).replies = ["VOTE-COMMIT".toList])) := by
  have hiff := voteAbort_iff { s with amount := x, accountName := tailText (tailText request) }
  have hrep := vote_replies { s with amount := x, accountName := tailText (tailText request) }
  simp only at hiff
  rw [process_vote_request s request x hstate hhead hamount]
  refine ⟨?_, ?_, ?_, ?_⟩
  · rw [← hiff]
    exact hrep.1
  · intro hn
    rw [← hiff] at hn
    rw [vote, if_neg hn]
  · intro hx hex
    have hn : ¬ voteAbort { s with amount := x, accountName := tailText (tailText request) }
        = true := by
      rw [hiff]
      rintro (h | ⟨h, _⟩)
      · obtain ⟨acc, hacc, hname⟩ := hex
        exact h acc hacc hname
      · rw [hx] at h
        exact Bool.false_ne_true h
    rw [vote, if_neg hn]
    rfl
  · intro acc hfind
    have hv := voteAbort_of_find
      { s with amount := x, accountName := tailText (tailText request) } acc hfind
    simp only at hv
    obtain ⟨h1, h2, h3, h4⟩ := Dbl.insufficient x acc.amount
    rw [hrep.1, hrep.2, hv]
    exact ⟨h1, h2, h3, h4⟩

/-- Witness of C3: `alice` holds 100; a debit of 130 is answered `VOTE-ABORT`, as
`-130 < 0` and `100 < 130`, and a debit of 30 is answered `VOTE-COMMIT`. -/
theorem vote_abort_iff_missing_or_insufficient_witness :
    sampleOrigin.state = State.INIT ∧
    headToken "VOTE-REQUEST -130 alice".toList = "VOTE-REQUEST".toList ∧
    stod (headToken (tailText "VOTE-REQUEST -130 alice".toList)) = some (Dbl.fin (-130)) ∧
    (process sampleOrigin "VOTE-REQUEST -130 alice".toList).replies = ["VOTE-ABORT".toList] ∧
    stod (headToken (tailText "VOTE-REQUEST -30 alice".toList)) = some (Dbl.fin (-30)) ∧
    process sampleOrigin "VOTE-REQUEST -30 alice".toList =
      Outcome.returned true
        { sampleOrigin with amount := Dbl.fin (-30), accountName := "alice".toList,
                            state := State.READY }
        ["VOTE-COMMIT".toList] none :=
  ⟨rfl, by decide, by decide!,
    (((vote_abort_iff_missing_or_insufficient sampleOrigin "VOTE-REQUEST -130 alice".toList
      (Dbl.fin (-130)) rfl (by decide) (by decide!)).2.2.2
        ⟨"alice".toList, Dbl.fin 100⟩ (by decide!)).1 (-130) 100 rfl rfl).mpr
      ⟨by norm_num, by norm_num⟩,
    by decide!,
    (vote_abort_iff_missing_or_insufficient sampleOrigin "VOTE-REQUEST -30 alice".toList
      (Dbl.fin (-30)) rfl (by decide) (by decide!)).2.1 (by decide!)⟩

/-- The account the iterator loop stops on bears the name looked for, and no
account before it does. -/
theorem findAccount_spec (accountVec : List Account) (a : Str) (it : Account)
    (h : accountVec[findAccount accountVec a]? = some it) :
    it.accountName = a ∧
      ∀ j, j < findAccount accountVec a → ∀ acc, accountVec[j]? = some acc → acc.accountName ≠ a := by
  constructor
  · have := List.findIdx_of_getElem?_eq_some h
    simpa [Account.getAccountName] using this
  · intro j hj acc hacc hname
    have hlt : j < accountVec.length := by
      rcases List.getElem?_eq_some.mp hacc with ⟨hl, _⟩
      exact hl
    have hnot := List.not_of_lt_findIdx hj
    have hacc' : accountVec[j] = acc := by
      rcases List.getElem?_eq_some.mp hacc with ⟨_, he⟩
      exact he
    rw [hacc'] at hnot
    simp [Account.getAccountName, hname] at hnot

/-- Counterexample to C4: `alice` holds `2 ^ 53 = 9007199254740992`, loaded from the
file `9007199254740992 alice`.  The request `VOTE-REQUEST 1 alice` is read as the
amount 1 for `alice` and answered `VOTE-COMMIT`; on `GLOBAL-COMMIT` the balance
becomes the double sum `2 ^ 53 + 1`, which is `2 ^ 53` again: the ledger after the
commit is the ledger before it, and no balance has gone from `b` to `b + x`. -/
theorem commit_of_one_is_lost :
    loadAccounts "9007199254740992 alice\n".toList = some sampleHuge.accountVec ∧
    stod (headToken (tailText "VOTE-REQUEST 1 alice".toList)) = some (Dbl.fin 1) ∧
    process sampleHuge "VOTE-REQUEST 1 alice".toList =
      Outcome.returned true
        { sampleHuge with amount := Dbl.fin 1, accountName := "alice".toList,
                          state := State.READY }
        ["VOTE-COMMIT".toList] none ∧
    (process { sampleHuge with amount := Dbl.fin 1, accountName := "alice".toList,
                               state := State.READY } "GLOBAL-COMMIT".toList).server? =
      some { sampleHuge with amount := Dbl.fin 1, accountName := "alice".toList } ∧
    (Dbl.fin (2 ^ 53)).add (Dbl.fin 1) = Dbl.fin (2 ^ 53) ∧
    (Dbl.fin (2 ^ 53)).add (Dbl.fin 1) ≠ Dbl.fin (2 ^ 53 + 1) := by
  refine ⟨?_, ?_, ?_, ?_, ?_, ?_⟩ <;> decide!

/-- C4, amended: when a `VOTE-REQUEST` read as account `a` and amount `x` has put
the participant in `READY`, `GLOBAL-COMMIT` replaces the first account named `a`,
of balance `b`, by the account `a` whose balance is the double sum of `b` and
`x`; the ledger keeps its length, and every other position keeps its account
(name and balance).  The double sum of two finite numbers is their sum rounded to
binary64: when finite it is at most half a unit in the last place away from their
sum, and it is their sum itself when both are integers and the sum has magnitude
at most `2 ^ 53`. -/
theorem global_commit_changes_one_balance (s s1 : P2Server) (request : Str)
    (replies : List Str) (written : Option Str)
    (hvote : process s request = Outcome.returned true s1 replies written) :
    s1.state = State.READY ∧
    s1.accountName = tailText (tailText request) ∧
    stod (headToken (tailText request)) = some s1.amount ∧
    ∃ i b s2,
      i = findAccount s.accountVec s1.accountName ∧
      s.accountVec[i]? = some ⟨s1.accountName, b⟩ ∧
      (∀ j, j < i → ∀ acc, s.accountVec[j]? = some acc → acc.accountName ≠ s1.accountName) ∧
      (process s1 "GLOBAL-COMMIT".toList).server? = some s2 ∧
      s2.accountVec = s.accountVec.set i ⟨s1.accountName, b.add s1.amount⟩ ∧
      s2.accountVec[i]? = some ⟨s1.accountName, b.add s1.amount⟩ ∧
      s2.accountVec.length = s.accountVec.length ∧
      (∀ j, j ≠ i → s2.accountVec[j]? = s.accountVec[j]?) ∧
      (∀ p q : ℚ, b = Dbl.fin p → s1.amount = Dbl.fin q →
        s2.accountVec[i]? = some ⟨s1.accountName, Dbl.round (p + q)⟩) ∧
      (∀ p q r : ℚ, b = Dbl.fin p → s1.amount = Dbl.fin q →
        s2.accountVec[i]? = some ⟨s1.accountName, Dbl.fin r⟩ →
        |r - (p + q)| ≤ (2 : ℚ) ^ Dbl.quantum |p + q| / 2) ∧
      (∀ m n : Int, b = Dbl.fin m → s1.amount = Dbl.fin n → |m + n| ≤ 2 ^ 53 →
        s2.accountVec[i]? = some ⟨s1.accountName, Dbl.fin ((m + n : Int) : ℚ)⟩) := by
  obtain ⟨hst, hhead, hx, hs1, hv, -, -⟩ := process_returned_true s s1 request replies written hvote
  have hname : s1.accountName = tailText (tailText request) := by rw [hs1]
  have hvec : s1.accountVec = s.accountVec := by rw [hs1]
  have hready : s1.state = State.READY := by rw [hs1]
  refine ⟨hready, hname, hx, ?_⟩
  -- the vote was a commit, so the loop found an account
  rw [← hname] at hv
  cases hit : s.accountVec[findAccount s.accountVec s1.accountName]? with
  | none =>
    simp only [voteAbort, hit] at hv
    exact absurd hv (by decide)
  | some it =>
    obtain ⟨hitname, hfirst⟩ := findAccount_spec s.accountVec s1.accountName it hit
    have hlt : findAccount s.accountVec s1.accountName < s.accountVec.length := by
      rcases List.getElem?_eq_some.mp hit with ⟨hl, _⟩
      exact hl
    have hct : commitTransfer s1.accountVec s1.accountName s1.amount =
        some (s.accountVec.set (findAccount s.accountVec s1.accountName)
          ⟨s1.accountName, it.amount.add s1.amount⟩) := by
      rw [hvec]
      simp only [commitTransfer, hit, Account.changeAmount, hitname]
    have hit' : s.accountVec[findAccount s.accountVec s1.accountName]? =
        some ⟨s1.accountName, it.amount⟩ := by
      rw [hit, ← hitname]
    have hne : ¬ "GLOBAL-COMMIT".toList = "GLOBAL-ABORT".toList := by decide
    have hproc : ∃ s2, (process s1 "GLOBAL-COMMIT".toList).server? = some s2 ∧
        s2.accountVec = s.accountVec.set (findAccount s.accountVec s1.accountName)
          ⟨s1.accountName, it.amount.add s1.amount⟩ := by
      rw [process_of_ready s1 _ hready, processReady, if_neg hne, if_pos rfl, hct]
      cases s1.accountFileOpens with
      | true => exact ⟨_, rfl, rfl⟩
      | false => exact ⟨_, rfl, rfl⟩
    obtain ⟨s2, hs2, hs2vec⟩ := hproc
    have hnew : s2.accountVec[findAccount s.accountVec s1.accountName]? =
        some ⟨s1.accountName, it.amount.add s1.amount⟩ := by
      rw [hs2vec, List.getElem?_set_self hlt]
    refine ⟨_, it.amount, s2, rfl, hit', hfirst, hs2, hs2vec, hnew, ?_, ?_, ?_, ?_, ?_⟩
    · rw [hs2vec, List.length_set]
    · intro j hj
      rw [hs2vec, List.getElem?_set_ne (Ne.symm hj)]
    · intro p q hp hq
      have hadd : (Dbl.fin p).add (Dbl.fin q) = Dbl.round (p + q) := rfl
      rw [hnew, hp, hq, hadd]
    · intro p q r hp hq hr
      have hadd : (Dbl.fin p).add (Dbl.fin q) = Dbl.round (p + q) := rfl
      rw [hnew, hp, hq, hadd] at hr
      exact Dbl.round_error _ _ (congrArg Account.amount (Option.some.inj hr))
    · intro m n hm hn hmn
      rw [hnew, hm, hn, Dbl.add_intCast m n hmn]

/-- Witness of C4: the debit of 30 from `alice`, who holds 100, is committed and
leaves her 70, and `carol` keeps her 7; the credit of 1 to a balance of `2 ^ 53`
is committed and leaves `2 ^ 53`, the double sum. -/
theorem global_commit_changes_one_balance_witness :
    process sampleOrigin "VOTE-REQUEST -30 alice".toList =
      Outcome.returned true sampleReady ["VOTE-COMMIT".toList] none ∧
    (∃ s2,
      (process sampleReady "GLOBAL-COMMIT".toList).server? = some s2 ∧
      s2.accountVec = [⟨"alice".toList, Dbl.fin 70⟩, ⟨"carol".toList, Dbl.fin 7⟩]) ∧
    (∃ s2,
      (process { sampleHuge with amount := Dbl.fin 1, accountName := "alice".toList,
                                 state := State.READY } "GLOBAL-COMMIT".toList).server?
        = some s2 ∧
      s2.accountVec = [⟨"alice".toList, Dbl.fin (2 ^ 53)⟩]) :=
  ⟨by decide!, by
    obtain ⟨-, -, -, i, b, s2, h1, h2, -, h4, h5, -⟩ :=
      global_commit_changes_one_balance sampleOrigin sampleReady
        "VOTE-REQUEST -30 alice".toList ["VOTE-COMMIT".toList] none (by decide!)
    have hi : i = 0 := by
      rw [h1]
      decide
    subst hi
    have hb : b = Dbl.fin 100 := by
      have h3 : sampleOrigin.accountVec[0]? = some ⟨"alice".toList, Dbl.fin 100⟩ := rfl
      rw [h3] at h2
      injection h2 with h2
      injection h2 with _ h2
      exact h2.symm
    refine ⟨s2, h4, ?_⟩
    rw [h5, hb]
    decide!, by
    obtain ⟨-, -, -, i, b, s2, h1, h2, -, h4, h5, -⟩ :=
      global_commit_changes_one_balance sampleHuge
        { sampleHuge with amount := Dbl.fin 1, accountName := "alice".toList,
                          state := State.READY }
        "VOTE-REQUEST 1 alice".toList ["VOTE-COMMIT".toList] none (by decide!)
    have hi : i = 0 := by
      rw [h1]
      decide
    subst hi
    have hb : b = Dbl.fin (2 ^ 53) := by
      have h3 : sampleHuge.accountVec[0]? = some ⟨"alice".toList, Dbl.fin (2 ^ 53)⟩ := rfl
      rw [h3] at h2
      injection h2 with h2
      injection h2 with _ h2
      exact h2.symm
    refine ⟨s2, h4, ?_⟩
    rw [h5, hb]
    decide!⟩

/-- In `INIT` a call of `process` always leaves a server behind, with the
accounts it had. -/
theorem processInit_accountVec (s : P2Server) (request : Str) :
    ∃ s1, (processInit s request).server? = some s1 ∧ s1.accountVec = s.accountVec := by
  unfold processInit
  split
  · exact ⟨s, rfl, rfl⟩
  · split
    · exact ⟨s, rfl, rfl⟩
    · unfold vote
      split
      · exact ⟨_, rfl, rfl⟩
      · exact ⟨_, rfl, rfl⟩

/-- A reply `VOTE-ABORT` comes from the `INIT` branch only, and leaves the server
in `INIT` with its accounts. -/
theorem process_vote_abort (s : P2Server) (request : Str)
    (hreply : "VOTE-ABORT".toList ∈ (process s request).replies) :
    ∃ s1, process s request = Outcome.returned false s1 ["VOTE-ABORT".toList] none ∧
      s1.accountVec = s.accountVec ∧ s1.state = State.INIT := by
  cases hst : s.state with
  | INIT =>
    rw [process_of_init s request hst] at hreply ⊢
    unfold processInit at hreply ⊢
    split
    · rename_i h
      rw [if_pos h] at hreply
      simp only [Outcome.replies, List.not_mem_nil] at hreply
    · rename_i h
      rw [if_neg h] at hreply
      split
      · rename_i hx
        rw [hx] at hreply
        simp only [Outcome.replies, List.not_mem_nil] at hreply
      · rename_i x hx
        rw [hx] at hreply
        simp only at hreply
        unfold vote at hreply ⊢
        split
        · exact ⟨_, rfl, rfl, hst⟩
        · rename_i hv
          rw [if_neg hv] at hreply
          simp only [Outcome.replies, List.mem_singleton] at hreply
          exact absurd hreply (by decide)
  | READY =>
    rw [process_of_ready s request hst] at hreply
    unfold processReady at hreply
    split at hreply
    · simp only [Outcome.replies, List.not_mem_nil] at hreply
    · split at hreply
      · split at hreply
        · simp only [Outcome.replies, List.not_mem_nil] at hreply
        · split at hreply <;> simp only [Outcome.replies, List.not_mem_nil] at hreply
      · simp only [Outcome.replies, List.not_mem_nil] at hreply
  | ABORT => simp only [process, hst, Outcome.replies, List.not_mem_nil] at hreply
  | COMMIT => simp only [process, hst, Outcome.replies, List.not_mem_nil] at hreply

/-- C5: a request answered `VOTE-ABORT` leaves the ledger as it was and the state
`INIT`, and whatever message is processed next (`GLOBAL-COMMIT`, `GLOBAL-ABORT` or
any other text) the ledger is still the original one. -/
theorem vote_abort_never_mutates (s : P2Server) (request : Str)
    (hreply : "VOTE-ABORT".toList ∈ (process s request).replies) :
    ∃ s1, (process s request).server? = some s1 ∧
      s1.accountVec = s.accountVec ∧ s1.state = State.INIT ∧
      ∀ d : Str, ∃ s2, (process s1 d).server? = some s2 ∧ s2.accountVec = s.accountVec := by
  obtain ⟨s1, hproc, hvec, hst⟩ := process_vote_abort s request hreply
  refine ⟨s1, by rw [hproc]; rfl, hvec, hst, ?_⟩
  intro d
  rw [process_of_init s1 d hst]
  obtain ⟨s2, h1, h2⟩ := processInit_accountVec s1 d
  exact ⟨s2, h1, h2.trans hvec⟩

/-- Witness of C5: a debit of 130 from `alice`, who holds 100, is answered
`VOTE-ABORT`. -/
theorem vote_abort_never_mutates_witness :
    "VOTE-ABORT".toList ∈ (process sampleOrigin "VOTE-REQUEST -130 alice".toList).replies ∧
    ∃ s1, (process sampleOrigin "VOTE-REQUEST -130 alice".toList).server? = some s1 ∧
      s1.accountVec = sampleOrigin.accountVec ∧ s1.state = State.INIT ∧
      ∀ d : Str, ∃ s2, (process s1 d).server? = some s2 ∧
        s2.accountVec = sampleOrigin.accountVec :=
  ⟨by decide!, vote_abort_never_mutates sampleOrigin "VOTE-REQUEST -130 alice".toList (by decide!)⟩

/-- C6: the run of Scenario A on the code.  With `alice` holding 100 at the origin,
`bob` holding 50 at the destination and amount 30, both vote requests carry
`argv[4]`, the origin port, where the account should be; each participant reads
`8080` as the amount and the amount text as the account name, finds no such
account and votes abort; `GLOBAL-ABORT` is sent, both balances stay, no `ACK` is
received and the final line is the error line.  A participant in `READY` that
processes `GLOBAL-COMMIT` applies the transfer (100 becomes 70) and sends no reply. -/
theorem scenario_A_on_the_code :
    runTransaction sampleArgv sampleOrigin sampleDestination =
      RunResult.finished
        (MainResult.success
          { sent := ["VOTE-REQUEST 8080 -30.000000".toList, "GLOBAL-ABORT".toList]
            sent2 := ["VOTE-REQUEST 8080 30.000000".toList, "GLOBAL-ABORT".toList]
            committed := false
            line := "Error: ACK not received. This should not occur.".toList })
        { sampleOrigin with amount := Dbl.fin 8080, accountName := "-30.000000".toList }
        { sampleDestination with amount := Dbl.fin 8080, accountName := "30.000000".toList } ∧
    (process sampleOrigin "VOTE-REQUEST 8080 -30.000000".toList).replies
      = ["VOTE-ABORT".toList] ∧
    (process sampleDestination "VOTE-REQUEST 8080 30.000000".toList).replies
      = ["VOTE-ABORT".toList] ∧
    process sampleReady "GLOBAL-COMMIT".toList =
      Outcome.returned false
        { sampleReady with
            accountVec := [⟨"alice".toList, Dbl.fin 70⟩, ⟨"carol".toList, Dbl.fin 7⟩]
            state := State.INIT }
        [] (some "70 alice\n7 carol\n".toList) := by
  refine ⟨?_, ?_, ?_, ?_⟩ <;> decide!

/-- C7: on the command line `coordinator log.txt 30 hostA 8080 alice hostB 8081 bob`
the two vote requests are `VOTE-REQUEST 8080 -30.000000` and
`VOTE-REQUEST 8080 30.000000`: both name `argv[4]`, the origin port, and neither
names the account `alice` or `bob`. -/
theorem vote_requests_name_the_port :
    setup sampleArgv = Setup.go (Dbl.fin 30) ∧
    arg sampleArgv 5 = "alice".toList ∧ arg sampleArgv 8 = "bob".toList ∧
    message sampleArgv (Dbl.fin 30) = "VOTE-REQUEST 8080 -30.000000".toList ∧
    message2 sampleArgv (Dbl.fin 30) = "VOTE-REQUEST 8080 30.000000".toList ∧
    message sampleArgv (Dbl.fin 30) ≠ "VOTE-REQUEST alice -30.000000".toList ∧
    message2 sampleArgv (Dbl.fin 30) ≠ "VOTE-REQUEST bob 30.000000".toList := by
  refine ⟨?_, ?_, ?_, ?_, ?_, ?_, ?_⟩ <;> decide!

/-- C8: the participant reads the amount first and the account name second.  On
`VOTE-REQUEST alice -30.000000` it calls `stod` on `alice`, which throws; on
`VOTE-REQUEST 8080 -30.000000` it takes 8080 as the amount and `-30.000000` as the
account name; the request it reads as a debit of 30 from `alice` is
`VOTE-REQUEST -30.000000 alice`. -/
theorem vote_request_is_read_amount_first :
    process sampleOrigin "VOTE-REQUEST alice -30.000000".toList = Outcome.threw sampleOrigin ∧
    process sampleOrigin "VOTE-REQUEST 8080 -30.000000".toList =
      Outcome.returned false
        { sampleOrigin with amount := Dbl.fin 8080, accountName := "-30.000000".toList }
        ["VOTE-ABORT".toList] none ∧
    process sampleOrigin "VOTE-REQUEST -30.000000 alice".toList =
      Outcome.returned true sampleReady ["VOTE-COMMIT".toList] none := by
  refine ⟨?_, ?_, ?_⟩ <;> decide!

/-- C9: the account file `1234567 alice`, `50 bob` is loaded with balances 1234567
and 50; a `GLOBAL-COMMIT` for a transfer of zero to `bob` writes
`1.23457e+06 alice`, `50 bob`, since the stream prints six significant digits;
loading that file gives `alice` the balance 1234570. -/
theorem persisted_balance_is_truncated :
    loadAccounts "1234567 alice\n50 bob\n".toList = some sampleLarge.accountVec ∧
    process sampleLarge "GLOBAL-COMMIT".toList =
      Outcome.returned false { sampleLarge with state := State.INIT } []
        (some "1.23457e+06 alice\n50 bob\n".toList) ∧
    writeAccounts sampleLarge.accountVec = "1.23457e+06 alice\n50 bob\n".toList ∧
    loadAccounts "1.23457e+06 alice\n50 bob\n".toList =
      some [⟨"alice".toList, Dbl.fin 1234570⟩, ⟨"bob".toList, Dbl.fin 50⟩] := by
  refine ⟨?_, ?_, ?_, ?_⟩ <;> decide!

theorem spanDigits_fst_eq_nil (dig : Char → Option Nat) (c : Char) (rest : Str) :
    (spanDigits dig (c :: rest)).1 = [] ↔ dig c = none := by
  unfold spanDigits
  cases h : dig c <;> simp

theorem spanDigits_of_none (dig : Char → Option Nat) (c : Char) (rest : Str) (h : dig c = none) :
    spanDigits dig (c :: rest) = ([], c :: rest) := by
  unfold spanDigits
  simp [h]

theorem readDecimal_eq_none (t : Str) :
    readDecimal t = none ↔
      (spanDigits decDigit t).1 = [] ∧
        (readFraction decDigit (spanDigits decDigit t).2).1 = [] := by
  unfold readDecimal
  simp only
  split
  · rename_i h
    simp only [true_iff]
    exact h
  · rename_i h
    simp only [false_iff, reduceCtorEq]
    exact h

/-- The decimal reader fails exactly on a text that starts neither with a digit
nor with a point followed by a digit. -/
theorem readDecimal_eq_none_iff (t : Str) :
    readDecimal t = none ↔
      (match t with
      | [] => false
      | c :: rest =>
        (decDigit c).isSome ||
          (c = '.' && match rest with
            | [] => false
            | d :: _ => (decDigit d).isSome)) = false := by
  rw [readDecimal_eq_none]
  cases t with
  | nil => simp [spanDigits, readFraction]
  | cons c rest =>
    cases hc : decDigit c with
    | some d =>
      have h1 : (spanDigits decDigit (c :: rest)).1 ≠ [] := by
        rw [Ne, spanDigits_fst_eq_nil, hc]
        simp
      simp [h1, hc]
    | none =>
      rw [spanDigits_of_none decDigit c rest hc]
      by_cases hp : c = '.'
      · subst hp
        cases rest with
        | nil => simp [readFraction, spanDigits, hc]
        | cons d ds =>
          simp only [readFraction, spanDigits_fst_eq_nil, true_and, hc, Option.isSome_none,
            decide_True, Bool.true_and, Bool.false_or]
          cases decDigit d <;> simp
      · have hf : readFraction decDigit (c :: rest) = ([], c :: rest) := by
          unfold readFraction
          split
          · rename_i heq
            simp only [List.cons.injEq] at heq
            exact absurd heq.1 hp
          · rfl
        simp [hf, hp, hc]

theorem startsNumber_of_readHexPrefixed (t : Str) (m : ℚ) (h : readHexPrefixed t = some m) :
    startsNumber t = true := by
  unfold readHexPrefixed at h
  split at h
  · simp [startsNumber, decDigit]
  · exact absurd h (by simp)

/-- No magnitude is read exactly when the text starts neither with a digit nor
with a point followed by a digit. -/
theorem readMagnitude_eq_none_iff (t : Str) :
    readMagnitude t = none ↔
      (match t with
      | [] => false
      | c :: rest =>
        (decDigit c).isSome ||
          (c = '.' && match rest with
            | [] => false
            | d :: _ => (decDigit d).isSome)) = false := by
  unfold readMagnitude
  cases hhex : readHexPrefixed t with
  | some m =>
    have h := startsNumber_of_readHexPrefixed t m hhex
    unfold readHexPrefixed at hhex
    split at hhex
    · simp [decDigit]
    · exact absurd hhex (by simp)
  | none => exact readDecimal_eq_none_iff t

/-- The call `stod(s)` throws exactly when `s` is not readable or the number read
is outside the range of `double`. -/
theorem stod_eq_none_iff (s : Str) :
    stod s = none ↔ readable s = false ∨ exceedsRange s = true := by
  unfold stod readable exceedsRange
  simp only
  generalize (readSign (s.dropWhile isspace)).2 = t
  generalize (readSign (s.dropWhile isspace)).1 = sg
  by_cases hinf : (t.take 3).map Char.toLower = "inf".toList
  · simp [startsNumber, hinf]
  · by_cases hnan : (t.take 3).map Char.toLower = "nan".toList
    · simp [startsNumber, hnan, hinf]
    · rw [if_neg hinf, if_neg hnan]
      have hstart : startsNumber t = false ↔ readMagnitude t = none := by
        rw [readMagnitude_eq_none_iff]
        simp only [startsNumber, hinf, hnan, decide_False, Bool.false_or]
      cases hm : readMagnitude t with
      | none =>
        simp only [true_iff]
        exact Or.inl (hstart.mpr hm)
      | some m =>
        have hs : startsNumber t = true := by
          cases h : startsNumber t with
          | true => rfl
          | false =>
            rw [hstart.mp h] at hm
            exact absurd hm (by simp)
        cases hr : outOfRange m with
        | false =>
          simp only [hs, hr, Bool.false_eq_true, if_false, reduceCtorEq, Bool.true_eq_false,
            Bool.and_false, or_self]
        | true =>
          simp only [hs, hr, if_true, Bool.true_eq_false, ne_eq, hinf, not_false_eq_true,
            decide_True, hnan, Bool.and_self, or_true]

/-- The load loop fails exactly when `stod` throws on the balance text of some line. -/
theorem loadLines_eq_none_iff (lines : List Str) :
    loadLines lines = none ↔ ∃ line ∈ lines, stod (headToken line) = none := by
  induction lines with
  | nil => simp [loadLines]
  | cons line rest ih =>
    unfold loadLines
    cases h : stod (headToken line) with
    | none => simp [h]
    | some balance =>
      simp only [Option.map_eq_none', ih, List.mem_cons, exists_eq_or_imp, h, reduceCtorEq,
        false_or]

/-- Counterexample to C10: a line without a space is loaded, as are digits followed
by other text.  The file `100` gives the account named `100` with balance 100, and
`12abc name` gives the account `name` with balance 12. -/
theorem load_accepts_malformed_lines :
    find "100".toList ' ' = npos ∧
    loadAccounts "100".toList = some [⟨"100".toList, Dbl.fin 100⟩] ∧
    loadAccounts "12abc name".toList = some [⟨"name".toList, Dbl.fin 12⟩] := by
  refine ⟨?_, ?_, ?_⟩ <;> decide!

/-- C10, amended: loading fails, and gives no ledger, exactly when the account file
has a line whose text before the first space (the whole line when it has no space)
does not start, after white space and an optional sign, with a digit, a point
followed by a digit, `inf` or `nan`, or starts with a number outside the range of
`double`. -/
theorem load_fails_iff_unreadable_balance (text : Str) :
    loadAccounts text = none ↔
      ∃ line ∈ getlines text,
        readable (headToken line) = false ∨ exceedsRange (headToken line) = true := by
  unfold loadAccounts
  rw [loadLines_eq_none_iff]
  simp only [stod_eq_none_iff]

/-- The commit branch finds an account whenever one bears the name. -/
theorem commitTransfer_isSome (accountVec : List Account) (a : Str) (x : Dbl)
    (h : hasAccount accountVec a) :
    ∃ it, accountVec[findAccount accountVec a]? = some it ∧ it.accountName = a ∧
      commitTransfer accountVec a x =
        some (accountVec.set (findAccount accountVec a) ⟨a, it.amount.add x⟩) := by
  obtain ⟨acc, hacc, hname⟩ := h
  cases hit : accountVec[findAccount accountVec a]? with
  | none =>
    rw [getElem?_findAccount] at hit
    have := List.find?_eq_none.mp hit acc hacc
    simp [hname] at this
  | some it =>
    have hn : it.accountName = a := by
      have := List.findIdx_of_getElem?_eq_some hit
      simpa [Account.getAccountName] using this
    refine ⟨it, rfl, hn, ?_⟩
    simp only [commitTransfer, hit, Account.changeAmount, hn]

/-- C13: in `INIT`, a message whose text before the first space is not
`VOTE-REQUEST` (the empty message and a message without a space included) makes
`process` return `false` with no reply, the ledger, the state `INIT` and every
other field as they were; the call does not fail. -/
theorem protocol_violation_in_init (s : P2Server) (request : Str)
    (hstate : s.state = State.INIT)
    (hhead : headToken request ≠ "VOTE-REQUEST".toList) :
    process s request = Outcome.returned false s [] none := by
  rw [process_of_init s request hstate, processInit, if_pos hhead]

/-- Witness of C13: the empty message and the message `HELLO`. -/
theorem protocol_violation_in_init_witness :
    sampleOrigin.state = State.INIT ∧
    headToken [] ≠ "VOTE-REQUEST".toList ∧
    process sampleOrigin [] = Outcome.returned false sampleOrigin [] none ∧
    process sampleOrigin "HELLO".toList = Outcome.returned false sampleOrigin [] none :=
  ⟨rfl, by decide, protocol_violation_in_init sampleOrigin [] rfl (by decide),
    protocol_violation_in_init sampleOrigin "HELLO".toList rfl (by decide)⟩

/-- What the `READY` branch does on `GLOBAL-COMMIT` when an account bears the
stored name. -/
theorem processReady_global_commit (s : P2Server) (h : hasAccount s.accountVec s.accountName) :
    ∃ it, s.accountVec[findAccount s.accountVec s.accountName]? = some it ∧
      it.accountName = s.accountName ∧
      processReady s "GLOBAL-COMMIT".toList =
        if s.accountFileOpens then
          Outcome.returned false
            { s with
                accountVec := s.accountVec.set (findAccount s.accountVec s.accountName)
                  ⟨s.accountName, it.amount.add s.amount⟩
                state := State.INIT } []
            (some (writeAccounts (s.accountVec.set (findAccount s.accountVec s.accountName)
              ⟨s.accountName, it.amount.add s.amount⟩)))
        else
          Outcome.exited
            { s with
                accountVec := s.accountVec.set (findAccount s.accountVec s.accountName)
                  ⟨s.accountName, it.amount.add s.amount⟩ } := by
  obtain ⟨it, hit, hn, hct⟩ := commitTransfer_isSome s.accountVec s.accountName s.amount h
  have hne : ¬ "GLOBAL-COMMIT".toList = "GLOBAL-ABORT".toList := by decide
  refine ⟨it, hit, hn, ?_⟩
  rw [processReady, if_neg hne, if_pos rfl, hct]

/-- What the `READY` branch does on a message other than `GLOBAL-COMMIT`. -/
theorem processReady_other (s : P2Server) (m : Str) (hm : m ≠ "GLOBAL-COMMIT".toList) :
    processReady s m = Outcome.returned false { s with state := State.INIT } [] none := by
  unfold processReady
  by_cases h : m = "GLOBAL-ABORT".toList
  · rw [if_pos h]
  · rw [if_neg h, if_neg hm]

/-- Whenever the `READY` branch returns, it returns `false`, without a reply, in
state `INIT`. -/
theorem processReady_returned (s s1 : P2Server) (m : Str) (keep : Bool) (rs : List Str)
    (w : Option Str) (h : processReady s m = Outcome.returned keep s1 rs w) :
    keep = false ∧ rs = [] ∧ s1.state = State.INIT := by
  unfold processReady at h
  split at h
  · simp only [Outcome.returned.injEq] at h
    obtain ⟨h1, h2, h3, -⟩ := h
    subst h2
    exact ⟨h1.symm, h3.symm, rfl⟩
  · split at h
    · split at h
      · exact Outcome.noConfusion h
      · split at h
        · simp only [Outcome.returned.injEq] at h
          obtain ⟨h1, h2, h3, -⟩ := h
          subst h2
          exact ⟨h1.symm, h3.symm, rfl⟩
        · exact Outcome.noConfusion h
    · simp only [Outcome.returned.injEq] at h
      obtain ⟨h1, h2, h3, -⟩ := h
      subst h2
      exact ⟨h1.symm, h3.symm, rfl⟩

/-- C14: in `READY`, a message other than `GLOBAL-COMMIT` (`GLOBAL-ABORT` or any
other text) leaves every account as it was and puts the state back to `INIT`;
`GLOBAL-COMMIT` returns with the state `INIT` when an account bears the stored
name and the account file opens; and whenever a call made in `READY` returns, the
state is `INIT`. -/
theorem ready_returns_to_init (s : P2Server) (m : Str) (hready : s.state = State.READY) :
    (m ≠ "GLOBAL-COMMIT".toList →
      process s m = Outcome.returned false { s with state := State.INIT } [] none) ∧
    (hasAccount s.accountVec s.accountName → s.accountFileOpens = true →
      ∃ s1 w, process s "GLOBAL-COMMIT".toList = Outcome.returned false s1 [] w ∧
        s1.state = State.INIT) ∧
    (∀ keep s1 rs w, process s m = Outcome.returned keep s1 rs w → s1.state = State.INIT) := by
  refine ⟨?_, ?_, ?_⟩
  · intro hm
    rw [process_of_ready s m hready, processReady_other s m hm]
  · intro hacc hopen
    obtain ⟨it, -, -, hp⟩ := processReady_global_commit s hacc
    rw [process_of_ready s _ hready, hp, hopen, if_pos rfl]
    exact ⟨_, _, rfl, rfl⟩
  · intro keep s1 rs w h
    rw [process_of_ready s m hready] at h
    exact (processReady_returned s s1 m keep rs w h).2.2

/-- Witness of C14: the participant that holds a debit of 30 from `alice`. -/
theorem ready_returns_to_init_witness :
    sampleReady.state = State.READY ∧
    process sampleReady "GLOBAL-ABORT".toList =
      Outcome.returned false { sampleReady with state := State.INIT } [] none ∧
    process sampleReady "HELLO".toList =
      Outcome.returned false { sampleReady with state := State.INIT } [] none :=
  ⟨rfl, (ready_returns_to_init sampleReady "GLOBAL-ABORT".toList rfl).1 (by decide),
    (ready_returns_to_init sampleReady "HELLO".toList rfl).1 (by decide)⟩

/-- C12: Scenarios B and C on the code.  With `alice` holding 10 at the origin and
a transfer of 30, and again with no account `bob` at the destination, both
participants vote abort, `GLOBAL-ABORT` is sent on both sessions and no balance
changes; but no `ACK` comes back, so the final line is the error line and not
`Transaction aborted`.  Neither a participant in `READY` nor one in `INIT`
replies to `GLOBAL-ABORT`. -/
theorem abort_scenarios_on_the_code :
    runTransaction sampleArgv sampleShort sampleDestination =
      RunResult.finished
        (MainResult.success
          { sent := ["VOTE-REQUEST 8080 -30.000000".toList, "GLOBAL-ABORT".toList]
            sent2 := ["VOTE-REQUEST 8080 30.000000".toList, "GLOBAL-ABORT".toList]
            committed := false
            line := "Error: ACK not received. This should not occur.".toList })
        { sampleShort with amount := Dbl.fin 8080, accountName := "-30.000000".toList }
        { sampleDestination with amount := Dbl.fin 8080, accountName := "30.000000".toList } ∧
    runTransaction sampleArgv sampleOrigin sampleStranger =
      RunResult.finished
        (MainResult.success
          { sent := ["VOTE-REQUEST 8080 -30.000000".toList, "GLOBAL-ABORT".toList]
            sent2 := ["VOTE-REQUEST 8080 30.000000".toList, "GLOBAL-ABORT".toList]
            committed := false
            line := "Error: ACK not received. This should not occur.".toList })
        { sampleOrigin with amount := Dbl.fin 8080, accountName := "-30.000000".toList }
        { sampleStranger with amount := Dbl.fin 8080, accountName := "30.000000".toList } ∧
    "Error: ACK not received. This should not occur.".toList ≠ "Transaction aborted".toList ∧
    process sampleReady "GLOBAL-ABORT".toList =
      Outcome.returned false { sampleReady with state := State.INIT } [] none ∧
    process sampleShort "GLOBAL-ABORT".toList = Outcome.returned false sampleShort [] none ∧
    (process sampleShort "VOTE-REQUEST -30.000000 alice".toList).replies
      = ["VOTE-ABORT".toList] := by
  refine ⟨?_, ?_, ?_, ?_, ?_, ?_⟩ <;> decide!

/-- C16: in `INIT`, the message `VOTE-REQUEST` alone, a request whose amount field
is not a number and one whose amount is out of the range of `double` make `stod`
throw out of `process`: no reply is sent and the call does not return. -/
theorem vote_request_without_amount_throws :
    headToken "VOTE-REQUEST".toList = "VOTE-REQUEST".toList ∧
    process sampleOrigin "VOTE-REQUEST".toList = Outcome.threw sampleOrigin ∧
    process sampleOrigin "VOTE-REQUEST abc alice".toList = Outcome.threw sampleOrigin ∧
    process sampleOrigin "VOTE-REQUEST 1e999 alice".toList = Outcome.threw sampleOrigin ∧
    (process sampleOrigin "VOTE-REQUEST".toList).replies = [] ∧
    (process sampleOrigin "VOTE-REQUEST".toList).keep? = none := by
  refine ⟨?_, ?_, ?_, ?_, ?_, ?_⟩ <;> decide!

/-- C20: in the ledger `alice` 100, `carol` 7 every balance is `>= 0`.  The request
`VOTE-REQUEST nan alice` is read as the amount NaN, which is not `< 0`, and is
answered `VOTE-COMMIT`; `GLOBAL-COMMIT` then makes the balance of `alice` a NaN,
which is not `>= 0`; after that a debit of 1000000 from `alice` is accepted. -/
theorem nan_amount_breaks_the_balance :
    (∀ acc ∈ sampleOrigin.accountVec, nonNegative acc.amount = true) ∧
    (process sampleOrigin "VOTE-REQUEST nan alice".toList).replies = ["VOTE-COMMIT".toList] ∧
    processAll sampleOrigin ["VOTE-REQUEST nan alice".toList, "GLOBAL-COMMIT".toList] =
      some { sampleOrigin with
              accountVec := [⟨"alice".toList, Dbl.nan⟩, ⟨"carol".toList, Dbl.fin 7⟩]
              amount := Dbl.nan
              accountName := "alice".toList } ∧
    nonNegative Dbl.nan = false ∧
    (process
        { sampleOrigin with
            accountVec := [⟨"alice".toList, Dbl.nan⟩, ⟨"carol".toList, Dbl.fin 7⟩]
            amount := Dbl.nan
            accountName := "alice".toList }
        "VOTE-REQUEST -1000000 alice".toList).replies = ["VOTE-COMMIT".toList] := by
  refine ⟨?_, ?_, ?_, ?_, ?_⟩ <;> decide!

/-- The final line is one of three texts, chosen by the flag and the two
acknowledgments. -/
theorem finalLine_cases (committed : Bool) (a1 a2 : Str) :
    (finalLine committed a1 a2 = "Transaction committed".toList ↔
      committed = true ∧ a1 = "ACK".toList ∧ a2 = "ACK".toList) ∧
    (finalLine committed a1 a2 = "Transaction aborted".toList ↔
      committed = false ∧ a1 = "ACK".toList ∧ a2 = "ACK".toList) ∧
    (¬ (a1 = "ACK".toList ∧ a2 = "ACK".toList) →
      finalLine committed a1 a2 = "Error: ACK not received. This should not occur.".toList) := by
  have h1 : "Transaction committed".toList ≠ "Transaction aborted".toList := by decide
  have h2 : "Error: ACK not received. This should not occur.".toList ≠
      "Transaction committed".toList := by decide
  have h3 : "Error: ACK not received. This should not occur.".toList ≠
      "Transaction aborted".toList := by decide
  unfold finalLine
  by_cases hack : a1 = "ACK".toList ∧ a2 = "ACK".toList
  · rw [if_pos hack]
    cases committed with
    | true =>
      refine ⟨⟨fun _ => ⟨rfl, hack⟩, fun _ => rfl⟩, ⟨fun h => absurd h h1, fun h => ?_⟩,
        fun hn => absurd hack hn⟩
      exact absurd h.1 (by decide)
    | false =>
      refine ⟨⟨fun h => absurd h.symm h1, fun h => ?_⟩, ⟨fun _ => ⟨rfl, hack⟩, fun _ => rfl⟩,
        fun hn => absurd hack hn⟩
      exact absurd h.1 (by decide)
  · rw [if_neg hack]
    exact ⟨⟨fun h => absurd h h2, fun h => absurd h.2 hack⟩,
      ⟨fun h => absurd h h3, fun h => absurd h.2 hack⟩, fun _ => rfl⟩

/-- C15: once the argument checks have passed, `main` ends with success whatever
the acknowledgments; its final line is `Transaction committed` exactly when the
decision was commit and both acknowledgments are `ACK`, `Transaction aborted`
exactly when the decision was abort and both are `ACK`, and the error line in
every other case; the requests sent and the flag `committed` do not depend on
the acknowledgments. -/
theorem final_line_follows_acks (argv : List Str) (amount : Dbl) (votes acks : Str × Str)
    (hsetup : setup argv = Setup.go amount) :
    ∃ run, main argv votes acks = MainResult.success run ∧
      (run.line = "Transaction committed".toList ↔
        run.committed = true ∧ acks.1 = "ACK".toList ∧ acks.2 = "ACK".toList) ∧
      (run.line = "Transaction aborted".toList ↔
        run.committed = false ∧ acks.1 = "ACK".toList ∧ acks.2 = "ACK".toList) ∧
      (¬ (acks.1 = "ACK".toList ∧ acks.2 = "ACK".toList) →
        run.line = "Error: ACK not received. This should not occur.".toList) ∧
      (∀ acks2 : Str × Str, ∃ run2, main argv votes acks2 = MainResult.success run2 ∧
        run2.sent = run.sent ∧ run2.sent2 = run.sent2 ∧ run2.committed = run.committed) := by
  obtain ⟨h1, h2, h3⟩ := finalLine_cases (decision votes.1 votes.2).1 acks.1 acks.2
  refine ⟨_, by simp only [main, hsetup]; rfl, h1, h2, h3, ?_⟩
  intro acks2
  exact ⟨⟨[message argv amount, (decision votes.1 votes.2).2],
      [message2 argv amount, (decision votes.1 votes.2).2], (decision votes.1 votes.2).1,
      finalLine (decision votes.1 votes.2).1 acks2.1 acks2.2⟩,
    by simp only [main, hsetup], rfl, rfl, rfl⟩

/-- Witness of C15: on the sample command line, two commit votes followed by an
`ACK` and an empty reply give the error line. -/
theorem final_line_follows_acks_witness :
    setup sampleArgv = Setup.go (Dbl.fin 30) ∧
    ∃ run, main sampleArgv ("VOTE-COMMIT".toList, "VOTE-COMMIT".toList)
        ("ACK".toList, []) = MainResult.success run ∧
      run.line = "Error: ACK not received. This should not occur.".toList :=
  ⟨by decide!, by
    obtain ⟨run, hm, -, -, he, -⟩ :=
      final_line_follows_acks sampleArgv (Dbl.fin 30)
        ("VOTE-COMMIT".toList, "VOTE-COMMIT".toList) ("ACK".toList, []) (by decide!)
    exact ⟨run, hm, he (by decide)⟩⟩

/-- The `READY` branch sends no reply, however it ends. -/
theorem processReady_replies (s : P2Server) (m : Str) : (processReady s m).replies = [] := by
  unfold processReady
  split
  · rfl
  · split
    · split
      · rfl
      · split <;> rfl
    · rfl

/-- The replies of one call of `process`: none, one `VOTE-ABORT` or one
`VOTE-COMMIT`, and none outside `INIT`. -/
theorem process_replies (s : P2Server) (m : Str) :
    (process s m).replies = [] ∨
      (s.state = State.INIT ∧
        ((process s m).replies = ["VOTE-ABORT".toList] ∨
          (process s m).replies = ["VOTE-COMMIT".toList])) := by
  cases hst : s.state with
  | INIT =>
    rw [process_of_init s m hst]
    rcases processInit_cases s m with h | h | ⟨s1, h, -⟩ | ⟨s1, h, -⟩
    · exact Or.inl (by rw [h]; rfl)
    · exact Or.inl (by rw [h]; rfl)
    · exact Or.inr ⟨rfl, Or.inl (by rw [h]; rfl)⟩
    · exact Or.inr ⟨rfl, Or.inr (by rw [h]; rfl)⟩
  | READY =>
    rw [process_of_ready s m hst]
    exact Or.inl (processReady_replies s m)
  | ABORT => exact Or.inl (by simp only [process, hst]; rfl)
  | COMMIT => exact Or.inl (by simp only [process, hst]; rfl)

/-- C17: a message processed in `READY` (`GLOBAL-COMMIT`, `GLOBAL-ABORT` or any
other text) gets no reply; in every state each reply of `process` is
`VOTE-COMMIT` or `VOTE-ABORT`, and `ACK` is never sent. -/
theorem participant_never_acknowledges (s : P2Server) (m : Str) :
    (s.state = State.READY → (process s m).replies = []) ∧
    (∀ r ∈ (process s m).replies, r = "VOTE-COMMIT".toList ∨ r = "VOTE-ABORT".toList) ∧
    "ACK".toList ∉ (process s m).replies := by
  have hva : "ACK".toList ≠ "VOTE-ABORT".toList := by decide
  have hvc : "ACK".toList ≠ "VOTE-COMMIT".toList := by decide
  refine ⟨?_, ?_, ?_⟩
  · intro hready
    rw [process_of_ready s m hready]
    exact processReady_replies s m
  · intro r hr
    rcases process_replies s m with h | ⟨-, h | h⟩
    · rw [h] at hr
      exact absurd hr (List.not_mem_nil r)
    · rw [h, List.mem_singleton] at hr
      exact Or.inr hr
    · rw [h, List.mem_singleton] at hr
      exact Or.inl hr
  · intro hack
    rcases process_replies s m with h | ⟨-, h | h⟩
    · rw [h] at hack
      exact absurd hack (List.not_mem_nil _)
    · rw [h, List.mem_singleton] at hack
      exact hva hack
    · rw [h, List.mem_singleton] at hack
      exact hvc hack

/-- Witness of C17: the participant that holds a debit of 30 from `alice` sends
nothing on `GLOBAL-COMMIT`. -/
theorem participant_never_acknowledges_witness :
    sampleReady.state = State.READY ∧
    (process sampleReady "GLOBAL-COMMIT".toList).replies = [] :=
  ⟨rfl, (participant_never_acknowledges sampleReady "GLOBAL-COMMIT".toList).1 rfl⟩

/-- C18: `process` returns `true` exactly when the participant was in `INIT` and
answered `VOTE-COMMIT`, and the state is then `READY`; it returns `false` after a
protocol violation and after `VOTE-ABORT`; in `READY` it never returns `true`: it
returns `false` on every message other than `GLOBAL-COMMIT`, and on
`GLOBAL-COMMIT` when an account bears the stored name and the account file opens. -/
theorem returns_true_iff_vote_commit (s : P2Server) (m : Str) :
    ((process s m).keep? = some true ↔
      s.state = State.INIT ∧ (process s m).replies = ["VOTE-COMMIT".toList]) ∧
    ((process s m).keep? = some true →
      ∃ s1, (process s m).server? = some s1 ∧ s1.state = State.READY) ∧
    (s.state = State.INIT → headToken m ≠ "VOTE-REQUEST".toList →
      (process s m).keep? = some false) ∧
    ("VOTE-ABORT".toList ∈ (process s m).replies → (process s m).keep? = some false) ∧
    (s.state = State.READY →
      (process s m).keep? ≠ some true ∧
      (m ≠ "GLOBAL-COMMIT".toList → (process s m).keep? = some false) ∧
      (hasAccount s.accountVec s.accountName → s.accountFileOpens = true →
        (process s "GLOBAL-COMMIT".toList).keep? = some false)) := by
  have hne : ["VOTE-ABORT".toList] ≠ ["VOTE-COMMIT".toList] := by decide
  refine ⟨?_, ?_, ?_, ?_, ?_⟩
  · constructor
    · intro hk
      cases ho : process s m with
      | returned keep s1 rs w =>
        rw [ho] at hk
        simp only [Outcome.keep?, Option.some.injEq] at hk
        subst hk
        obtain ⟨hst, -, -, -, -, hrs, -⟩ := process_returned_true s s1 m rs w ho
        exact ⟨hst, by rw [hrs]; rfl⟩
      | threw s1 => rw [ho] at hk; exact absurd hk (by simp [Outcome.keep?])
      | exited s1 => rw [ho] at hk; exact absurd hk (by simp [Outcome.keep?])
      | undefined => rw [ho] at hk; exact absurd hk (by simp [Outcome.keep?])
    · rintro ⟨hst, hrs⟩
      rw [process_of_init s m hst] at hrs ⊢
      rcases processInit_cases s m with h | h | ⟨s1, h, -⟩ | ⟨s1, h, -⟩
      · rw [h] at hrs
        exact absurd hrs (by simp [Outcome.replies])
      · rw [h] at hrs
        exact absurd hrs (by simp [Outcome.replies])
      · rw [h] at hrs
        exact absurd hrs hne
      · rw [h]
        rfl
  · intro hk
    cases ho : process s m with
    | returned keep s1 rs w =>
      rw [ho] at hk
      simp only [Outcome.keep?, Option.some.injEq] at hk
      subst hk
      obtain ⟨-, -, -, hs1, -⟩ := process_returned_true s s1 m rs w ho
      exact ⟨s1, rfl, by rw [hs1]⟩
    | threw s1 => rw [ho] at hk; exact absurd hk (by simp [Outcome.keep?])
    | exited s1 => rw [ho] at hk; exact absurd hk (by simp [Outcome.keep?])
    | undefined => rw [ho] at hk; exact absurd hk (by simp [Outcome.keep?])
  · intro hst hhead
    rw [process_of_init s m hst, processInit, if_pos hhead]
    rfl
  · intro hva
    obtain ⟨s1, h, -⟩ := process_vote_abort s m hva
    rw [h]
    rfl
  · intro hready
    rw [process_of_ready s m hready, process_of_ready s _ hready]
    refine ⟨?_, ?_, ?_⟩
    · intro hk
      cases ho : processReady s m with
      | returned keep s1 rs w =>
        rw [ho] at hk
        simp only [Outcome.keep?, Option.some.injEq] at hk
        have := (processReady_returned s s1 m keep rs w ho).1
        rw [hk] at this
        exact absurd this (by decide)
      | threw s1 => rw [ho] at hk; exact absurd hk (by simp [Outcome.keep?])
      | exited s1 => rw [ho] at hk; exact absurd hk (by simp [Outcome.keep?])
      | undefined => rw [ho] at hk; exact absurd hk (by simp [Outcome.keep?])
    · intro hm
      rw [processReady_other s m hm]
      rfl
    · intro hacc hopen
      obtain ⟨it, -, -, hp⟩ := processReady_global_commit s hacc
      rw [hp, hopen, if_pos rfl]
      rfl

/-- Witness of C18: the debit of 30 from `alice`, who holds 100, returns `true`;
the same participant once in `READY` returns `false` on `GLOBAL-COMMIT`. -/
theorem returns_true_iff_vote_commit_witness :
    (process sampleOrigin "VOTE-REQUEST -30 alice".toList).keep? = some true ∧
    (process sampleReady "GLOBAL-COMMIT".toList).keep? = some false :=
  ⟨(returns_true_iff_vote_commit sampleOrigin "VOTE-REQUEST -30 alice".toList).1.mpr
      ⟨rfl, by decide!⟩,
    (returns_true_iff_vote_commit sampleReady "GLOBAL-COMMIT".toList).2.2.2.2 rfl |>.2.2
      ⟨⟨"alice".toList, Dbl.fin 100⟩, by decide!, rfl⟩ rfl⟩

/-- A commit vote is only taken when an account bears the stored name. -/
theorem hasAccount_of_voteAbort (s : P2Server) (h : voteAbort s = false) :
    hasAccount s.accountVec s.accountName := by
  cases hit : s.accountVec[findAccount s.accountVec s.accountName]? with
  | none =>
    simp only [voteAbort, hit] at h
    exact absurd h (by decide)
  | some it =>
    refine ⟨it, List.getElem?_mem hit, ?_⟩
    have := List.findIdx_of_getElem?_eq_some hit
    simpa [Account.getAccountName] using this

/-- One call of `process` on a settled participant has a defined behaviour and
leaves the participant settled. -/
theorem process_settled (s : P2Server) (m : Str) (h : settled s) :
    process s m ≠ Outcome.undefined ∧
      ∀ s1, (process s m).server? = some s1 → settled s1 := by
  rcases h with hinit | ⟨hready, hacc⟩
  · rw [process_of_init s m hinit]
    rcases processInit_cases s m with h | h | ⟨s1, h, hvec, hst⟩ | ⟨s1, h, hvec, hst, hv⟩
    · rw [h]
      refine ⟨Outcome.noConfusion, ?_⟩
      intro s2 hs2
      simp only [Outcome.server?, Option.some.injEq] at hs2
      subst hs2
      exact Or.inl hinit
    · rw [h]
      refine ⟨Outcome.noConfusion, ?_⟩
      intro s2 hs2
      simp only [Outcome.server?, Option.some.injEq] at hs2
      subst hs2
      exact Or.inl hinit
    · rw [h]
      refine ⟨Outcome.noConfusion, ?_⟩
      intro s2 hs2
      simp only [Outcome.server?, Option.some.injEq] at hs2
      subst hs2
      exact Or.inl (hst.trans hinit)
    · rw [h]
      refine ⟨Outcome.noConfusion, ?_⟩
      intro s2 hs2
      simp only [Outcome.server?, Option.some.injEq] at hs2
      subst hs2
      exact Or.inr ⟨hst, hasAccount_of_voteAbort s1 hv⟩
  · rw [process_of_ready s m hready]
    by_cases hm : m = "GLOBAL-COMMIT".toList
    · subst hm
      obtain ⟨it, hit, hn, hp⟩ := processReady_global_commit s hacc
      have hlt : findAccount s.accountVec s.accountName < s.accountVec.length :=
        (List.getElem?_eq_some.mp hit).1
      rw [hp]
      cases s.accountFileOpens with
      | true =>
        refine ⟨by rw [if_pos rfl]; exact Outcome.noConfusion, ?_⟩
        intro s2 hs2
        rw [if_pos rfl] at hs2
        simp only [Outcome.server?, Option.some.injEq] at hs2
        subst hs2
        exact Or.inl rfl
      | false =>
        refine ⟨by rw [if_neg (by decide)]; exact Outcome.noConfusion, ?_⟩
        intro s2 hs2
        rw [if_neg (by decide)] at hs2
        simp only [Outcome.server?, Option.some.injEq] at hs2
        subst hs2
        exact Or.inr ⟨hready, ⟨_, List.mem_set _ _ hlt _, rfl⟩⟩
    · rw [processReady_other s m hm]
      refine ⟨Outcome.noConfusion, ?_⟩
      intro s2 hs2
      simp only [Outcome.server?, Option.some.injEq] at hs2
      subst hs2
      exact Or.inl rfl

/-- A sequence of messages on a settled participant has a defined behaviour and
leaves the participant settled. -/
theorem processAll_settled (msgs : List Str) :
    ∀ s : P2Server, settled s → ∃ s1, processAll s msgs = some s1 ∧ settled s1 := by
  induction msgs with
  | nil =>
    intro s hs
    exact ⟨s, rfl, hs⟩
  | cons m ms ih =>
    intro s hs
    obtain ⟨hdef, hstep⟩ := process_settled s m hs
    unfold processAll
    cases ho : process s m with
    | returned keep s1 rs w =>
      rw [ho] at hstep
      exact ih s1 (hstep s1 rfl)
    | threw s1 =>
      rw [ho] at hstep
      exact ⟨s1, rfl, hstep s1 rfl⟩
    | exited s1 =>
      rw [ho] at hstep
      exact ⟨s1, rfl, hstep s1 rfl⟩
    | undefined => exact absurd ho hdef

/-- C19: from a participant in `INIT`, with any ledger, every sequence of messages
leads to a participant whose state is `INIT` or `READY`; when it is `READY` an
account of the ledger bears the stored name, so the loop of the commit branch
finds an account and `GLOBAL-COMMIT` never dereferences `end()`. -/
theorem reachable_states_are_settled (s0 : P2Server) (msgs : List Str)
    (h0 : s0.state = State.INIT) :
    ∃ s, processAll s0 msgs = some s ∧
      (s.state = State.INIT ∨ s.state = State.READY) ∧
      (s.state = State.READY →
        hasAccount s.accountVec s.accountName ∧
        (∃ accountVec, commitTransfer s.accountVec s.accountName s.amount = some accountVec) ∧
        process s "GLOBAL-COMMIT".toList ≠ Outcome.undefined) := by
  obtain ⟨s, hs, hset⟩ := processAll_settled msgs s0 (Or.inl h0)
  refine ⟨s, hs, ?_, ?_⟩
  · rcases hset with h | ⟨h, -⟩
    · exact Or.inl h
    · exact Or.inr h
  · intro hready
    have hacc : hasAccount s.accountVec s.accountName := by
      rcases hset with h | ⟨-, h⟩
      · rw [hready] at h
        exact absurd h (by decide)
      · exact h
    obtain ⟨it, -, -, hct⟩ := commitTransfer_isSome s.accountVec s.accountName s.amount hacc
    exact ⟨hacc, ⟨_, hct⟩, (process_settled s _ hset).1⟩

/-- Witness of C19: the participant loaded from the file `100 alice`, `7 carol`,
after a protocol violation, a debit that is refused and one that is accepted. -/
theorem reachable_states_are_settled_witness :
    P2Server.load "100 alice\n7 carol\n".toList (Dbl.fin 0) true = some sampleOrigin ∧
    sampleOrigin.state = State.INIT ∧
    processAll sampleOrigin
      ["HELLO".toList, "VOTE-REQUEST -130 alice".toList, "VOTE-REQUEST -30 alice".toList]
      = some sampleReady ∧
    ∃ s, processAll sampleOrigin
        ["HELLO".toList, "VOTE-REQUEST -130 alice".toList, "VOTE-REQUEST -30 alice".toList]
        = some s ∧
      (s.state = State.INIT ∨ s.state = State.READY) :=
  ⟨by decide!, rfl, by decide!, by
    obtain ⟨s, h1, h2, -⟩ := reachable_states_are_settled sampleOrigin
      ["HELLO".toList, "VOTE-REQUEST -130 alice".toList, "VOTE-REQUEST -30 alice".toList] rfl
    exact ⟨s, h1, h2⟩⟩

/-- A balance `>= 0` that passes the test of the vote for a finite amount stays
`>= 0` once the amount is added. -/
theorem Dbl.nonNegative_add (d a : Dbl) (x : ℚ) (hd : nonNegative d = true)
    (hx : a.finVal = some x) (hv : (a.lt (Dbl.fin 0) && d.lt a.neg) = false) :
    nonNegative (d.add a) = true := by
  cases d with
  | fin b =>
    have hb0 : 0 ≤ b := by simpa [nonNegative] using hd
    have h0 : (Dbl.fin 0).finVal = some 0 := rfl
    have hb : (Dbl.fin b).finVal = some b := rfl
    rw [Dbl.lt_of_finVal _ _ x 0 hx h0,
      Dbl.lt_of_finVal _ _ b (-x) hb (Dbl.finVal_neg _ x hx)] at hv
    have hsum : 0 ≤ b + x := by
      by_cases hneg : x < 0
      · by_cases hlt : b < -x
        · simp [hneg, hlt] at hv
        · linarith
      · linarith
    cases a with
    | fin q =>
      simp only [Dbl.finVal, Option.some.injEq] at hx
      subst hx
      exact Dbl.nonNegative_round _ hsum
    | negZero => simpa [Dbl.add, nonNegative] using hb0
    | inf s => simp [Dbl.finVal] at hx
    | nan => simp [Dbl.finVal] at hx
    | negNan => simp [Dbl.finVal] at hx
  | negZero =>
    cases a with
    | fin q =>
      simp only [Dbl.finVal, Option.some.injEq] at hx
      subst hx
      by_cases hq : q = 0
      · subst hq
        simp [Dbl.add, nonNegative]
      · by_cases hneg : q < 0
        · have : 0 < -q := by linarith
          simp [Dbl.lt, Dbl.neg, Dbl.finVal, hq, hneg, this] at hv
        · simpa [Dbl.add, nonNegative] using not_lt.mp hneg
    | negZero => simp [Dbl.add, nonNegative]
    | inf s => simp [Dbl.finVal] at hx
    | nan => simp [Dbl.finVal] at hx
    | negNan => simp [Dbl.finVal] at hx
  | inf s =>
    have hs : s = false := by simpa [nonNegative] using hd
    subst hs
    cases a with
    | fin q => simp [Dbl.add, nonNegative]
    | negZero => simp [Dbl.add, nonNegative]
    | inf s => simp [Dbl.finVal] at hx
    | nan => simp [Dbl.finVal] at hx
    | negNan => simp [Dbl.finVal] at hx
  | nan => simp [nonNegative] at hd
  | negNan => simp [nonNegative] at hd

/-- A commit vote on a finite amount, in a ledger of balances `>= 0`, leaves the
balance `>= 0` once the amount is added. -/
theorem voteAbort_false_solvent (s : P2Server) (x : ℚ)
    (hbal : ∀ acc ∈ s.accountVec, nonNegative acc.amount = true)
    (hx : s.amount.finVal = some x) (hv : voteAbort s = false) :
    ∃ it, s.accountVec[findAccount s.accountVec s.accountName]? = some it ∧
      nonNegative (it.amount.add s.amount) = true := by
  cases hit : s.accountVec[findAccount s.accountVec s.accountName]? with
  | none =>
    simp only [voteAbort, hit] at hv
    exact absurd hv (by decide)
  | some it =>
    refine ⟨it, rfl, ?_⟩
    simp only [voteAbort, hit, Dbl.mul_neg_one, Account.getAmount] at hv
    exact Dbl.nonNegative_add it.amount s.amount x (hbal it (List.getElem?_mem hit)) hx hv

/-- One call of `process` with a finite amount on a solvent participant has a
defined behaviour, leaves every balance `>= 0`, and leaves the participant
solvent when it returns. -/
theorem process_solvent (s : P2Server) (m : Str) (hs : solvent s)
    (hm : finiteAmount m = true) :
    process s m ≠ Outcome.undefined ∧
    (∀ s1, (process s m).server? = some s1 →
      ∀ acc ∈ s1.accountVec, nonNegative acc.amount = true) ∧
    (∀ keep s1 rs w, process s m = Outcome.returned keep s1 rs w → solvent s1) := by
  obtain ⟨hbal, hstate⟩ := hs
  rcases hstate with hinit | ⟨hready, it, hit, hsum⟩
  · rw [process_of_init s m hinit]
    unfold processInit
    split
    · refine ⟨Outcome.noConfusion, ?_, ?_⟩
      · intro s1 h1
        simp only [Outcome.server?, Option.some.injEq] at h1
        subst h1
        exact hbal
      · intro keep s1 rs w h1
        simp only [Outcome.returned.injEq] at h1
        obtain ⟨-, h2, -⟩ := h1
        subst h2
        exact ⟨hbal, Or.inl hinit⟩
    · cases hst : stod (headToken (tailText m)) with
      | none =>
        refine ⟨Outcome.noConfusion, ?_, ?_⟩
        · intro s1 h1
          simp only [Outcome.server?, Option.some.injEq] at h1
          subst h1
          exact hbal
        · intro keep s1 rs w h1
          exact Outcome.noConfusion h1
      | some amount =>
        simp only
        have hfin : amount.finVal.isSome = true := by
          simpa [finiteAmount, hst] using hm
        obtain ⟨x, hx⟩ := Option.isSome_iff_exists.mp hfin
        unfold vote
        split
        · refine ⟨Outcome.noConfusion, ?_, ?_⟩
          · intro s1 h1
            simp only [Outcome.server?, Option.some.injEq] at h1
            subst h1
            exact hbal
          · intro keep s1 rs w h1
            simp only [Outcome.returned.injEq] at h1
            obtain ⟨-, h2, -⟩ := h1
            subst h2
            exact ⟨hbal, Or.inl hinit⟩
        · rename_i hv
          have hv2 : voteAbort { s with amount := amount
                                        accountName := tailText (tailText m) } = false := by
            simpa using hv
          obtain ⟨it, hit, hsum⟩ :=
            voteAbort_false_solvent
              { s with amount := amount
                       accountName := tailText (tailText m) } x hbal hx hv2
          refine ⟨Outcome.noConfusion, ?_, ?_⟩
          · intro s1 h1
            simp only [Outcome.server?, Option.some.injEq] at h1
            subst h1
            exact hbal
          · intro keep s1 rs w h1
            simp only [Outcome.returned.injEq] at h1
            obtain ⟨-, h2, -⟩ := h1
            subst h2
            exact ⟨hbal, Or.inr ⟨rfl, it, hit, hsum⟩⟩
  · rw [process_of_ready s m hready]
    by_cases hgc : m = "GLOBAL-COMMIT".toList
    · subst hgc
      have hname : it.accountName = s.accountName := by
        have := List.findIdx_of_getElem?_eq_some hit
        simpa [Account.getAccountName] using this
      have hacc : hasAccount s.accountVec s.accountName :=
        ⟨it, List.getElem?_mem hit, hname⟩
      obtain ⟨it2, hit2, -, hp⟩ := processReady_global_commit s hacc
      have heq : it2 = it := by
        rw [hit] at hit2
        exact (Option.some.inj hit2).symm
      subst heq
      have hnew : ∀ acc ∈ s.accountVec.set (findAccount s.accountVec s.accountName)
          ⟨s.accountName, it2.amount.add s.amount⟩, nonNegative acc.amount = true := by
        intro acc hmem
        rcases List.mem_or_eq_of_mem_set hmem with h | h
        · exact hbal acc h
        · subst h
          exact hsum
      rw [hp]
      cases s.accountFileOpens with
      | true =>
        rw [if_pos rfl]
        refine ⟨Outcome.noConfusion, ?_, ?_⟩
        · intro s1 h1
          simp only [Outcome.server?, Option.some.injEq] at h1
          subst h1
          exact hnew
        · intro keep s1 rs w h1
          simp only [Outcome.returned.injEq] at h1
          obtain ⟨-, h2, -⟩ := h1
          subst h2
          exact ⟨hnew, Or.inl rfl⟩
      | false =>
        rw [if_neg (by decide)]
        refine ⟨Outcome.noConfusion, ?_, ?_⟩
        · intro s1 h1
          simp only [Outcome.server?, Option.some.injEq] at h1
          subst h1
          exact hnew
        · intro keep s1 rs w h1
          exact Outcome.noConfusion h1
    · rw [processReady_other s m hgc]
      refine ⟨Outcome.noConfusion, ?_, ?_⟩
      · intro s1 h1
        simp only [Outcome.server?, Option.some.injEq] at h1
        subst h1
        exact hbal
      · intro keep s1 rs w h1
        simp only [Outcome.returned.injEq] at h1
        obtain ⟨-, h2, -⟩ := h1
        subst h2
        exact ⟨hbal, Or.inl rfl⟩

/-- A sequence of messages with finite amounts on a solvent participant leaves
every balance `>= 0`. -/
theorem processAll_solvent (msgs : List Str) :
    ∀ s : P2Server, solvent s → (∀ m ∈ msgs, finiteAmount m = true) →
      ∃ s1, processAll s msgs = some s1 ∧
        ∀ acc ∈ s1.accountVec, nonNegative acc.amount = true := by
  induction msgs with
  | nil =>
    intro s hs _
    exact ⟨s, rfl, hs.1⟩
  | cons m ms ih =>
    intro s hs hms
    obtain ⟨hdef, hbal, hret⟩ := process_solvent s m hs (hms m (List.mem_cons_self m ms))
    unfold processAll
    cases ho : process s m with
    | returned keep s1 rs w =>
      exact ih s1 (hret keep s1 rs w ho) (fun m2 h2 => hms m2 (List.mem_cons_of_mem m h2))
    | threw s1 =>
      rw [ho] at hbal
      exact ⟨s1, rfl, hbal s1 rfl⟩
    | exited s1 =>
      rw [ho] at hbal
      exact ⟨s1, rfl, hbal s1 rfl⟩
    | undefined => exact absurd ho hdef

/-- No overdraft while the numbers are finite: from a participant in `INIT` whose
balances are all finite and `>= 0`, every sequence of messages whose amounts are
finite leads to a ledger whose balances are all `>= 0`. -/
theorem no_overdraft_of_finite (s0 : P2Server) (msgs : List Str)
    (h0 : s0.state = State.INIT)
    (hbal : ∀ acc ∈ s0.accountVec, finiteNonNegative acc.amount)
    (hmsgs : ∀ m ∈ msgs, finiteAmount m = true) :
    ∃ s, processAll s0 msgs = some s ∧ ∀ acc ∈ s.accountVec, nonNegative acc.amount = true := by
  refine processAll_solvent msgs s0 ⟨?_, Or.inl h0⟩ hmsgs
  intro acc hacc
  obtain ⟨b, hb, hb0⟩ := hbal acc hacc
  cases hd : acc.amount with
  | fin q =>
    rw [hd] at hb
    simp only [Dbl.finVal, Option.some.injEq] at hb
    subst hb
    simp [nonNegative, hb0]
  | negZero => rfl
  | inf sgn =>
    rw [hd] at hb
    simp [Dbl.finVal] at hb
  | nan =>
    rw [hd] at hb
    simp [Dbl.finVal] at hb
  | negNan =>
    rw [hd] at hb
    simp [Dbl.finVal] at hb

end TwoPC
